import Mathlib

/-!
# Terracraft: world generation, chunk store, coordinate mapping and collision

A shallow embedding of `src/game.js`.

Modelling conventions.

* JavaScript numbers are modelled in exact arithmetic: world pixel coordinates,
  velocities and time steps are rationals, tile and chunk indices are integers.
  Rounding, `NaN` and infinities of IEEE doubles are outside the model.
* 32-bit integer operators (`^`, `<<`, `>>`, `>>> 0`) act on the bit pattern of
  the operand, a natural number below `2^32`.
* The mutable globals (`chunks`, `noise`, `seed`, `player`, `keys`, `mouse`,
  `selectedBlock`, `w`, `h`) become fields of explicit state records that every
  operation receives and returns.
* `Math.random()` is an ambient stream `R : Nat → ℚ`; the state counts how many
  outcomes have been consumed.
* A JavaScript `TypeError` (indexing a row that does not exist) is the result
  `none`.
-/

namespace Terracraft

/-! ## Config -/

def TILE : Int := 32
def CHUNK_W : Int := 32
def CHUNK_H : Int := 64
def RENDER_RADIUS : Int := 3
def GRAVITY : ℚ := 20
def MOVE_SPEED : ℚ := 220
def JUMP_VELOCITY : ℚ := -360
def MAX_WORLD_HEIGHT : Int := CHUNK_H * TILE

/-! ## Blocks -/

/-- Tiles are the numbers stored in the grid cells. -/
abbrev Tile := Nat

def AIR : Tile := 0
def DIRT : Tile := 1
def STONE : Tile := 2
def WOOD : Tile := 3
def GRASS : Tile := 4

/-- The grid of one chunk, `tiles[y][x]`: a list of rows. -/
abbrev Grid := List (List Tile)

/-! ## Noise / FBM -/

/-- The operator `>>> 0`: the value modulo `2^32`, as an unsigned number. -/
def toUint32 (z : Int) : Nat := (z % 4294967296).toNat

/-- Bit pattern of `n << k` for the 32-bit pattern `n`. -/
def shl32 (n k : Nat) : Nat := (n <<< k) % 4294967296

/-- Bit pattern of `n >> k`, the sign-propagating shift of the 32-bit pattern
`n` read as a signed integer. -/
def sar32 (n k : Nat) : Nat :=
  if n < 2147483648 then n >>> k else (n >>> k) + (4294967296 - 2 ^ (32 - k))

/-- The lattice hash `rand(n)` of `makeNoise`. The argument is taken modulo
`2^32` (the conversion applied by the first `^`), then mixed by the three
shift-xor rounds. -/
def rand (n : Nat) : ℚ :=
  let n0 := n % 4294967296
  let n1 := n0 ^^^ shl32 n0 13
  let n2 := n1 ^^^ sar32 n1 17
  let n3 := n2 ^^^ shl32 n2 5
  (n3 : ℚ) / 4294967295

/-- The closure returned by `makeNoise(seed)`: it captures `s = seed >>> 0`. -/
structure Noise where
  s : Nat
deriving DecidableEq

def makeNoise (seed : Int) : Noise := ⟨toUint32 seed⟩

def Noise.value1D (noise : Noise) (x : ℚ) : ℚ :=
  let x0 : Int := Int.floor x
  let x1 : Int := x0 + 1
  let t : ℚ := x - x0
  let u : ℚ := t * t * (3 - 2 * t)
  let a := rand (toUint32 x0 ^^^ noise.s)
  let b := rand (toUint32 x1 ^^^ noise.s)
  a * (1 - u) + b * u

/-- The smoothstep weight `t*t*(3 - 2*t)` computed inside `value1D` (the local
`u`), named for use in statements. -/
def smoothstep (t : ℚ) : ℚ := t * t * (3 - 2 * t)

/-- One iteration of the octave loop of `fbm` on the triple `(amp, freq, sum)`. -/
def fbmStep (noise : Noise) (x : ℚ) (st : ℚ × ℚ × ℚ) : ℚ × ℚ × ℚ :=
  let amp := st.1
  let freq := st.2.1
  let sum := st.2.2
  (amp * (1 / 2), freq * 2, sum + noise.value1D (x * freq) * amp)

def fbm (noise : Noise) (x : ℚ) : ℚ :=
  let st := (List.range 4).foldl (fun st _ => fbmStep noise x st) (1, 1, 0)
  st.2.2 * 2 - 1

/-- The expression `Math.floor(20 + 8*fbm(wx*0.03))` of `getChunk`. -/
def surfaceHeight (noise : Noise) (wx : Int) : Int :=
  Int.floor (20 + 8 * fbm noise ((wx : ℚ) * (3 / 100)))

/-! ## Chunk store -/

/-- Decimal digits of a natural number, most significant first. -/
def natDigits : Nat → Nat → List Char
  | 0, _ => []
  | fuel + 1, n =>
    if n < 10 then [Char.ofNat (48 + n)]
    else natDigits fuel (n / 10) ++ [Char.ofNat (48 + n % 10)]

/-- Number-to-string conversion of an integer-valued number (decimal, with a
leading minus sign for negatives). -/
def numToChars (z : Int) : List Char :=
  if z < 0 then '-' :: natDigits (z.natAbs + 1) z.natAbs
  else natDigits (z.natAbs + 1) z.natAbs

/-- The map key `cx + ',' + cy`. -/
def chunkKey (cx cy : Int) : String :=
  String.mk (numToChars cx ++ ',' :: numToChars cy)

/-- The `Map` from key to grid, in insertion order. -/
abbrev Chunks := List (String × Grid)

def Chunks.get : Chunks → String → Option Grid
  | [], _ => none
  | (k, g) :: rest, key => if k = key then some g else Chunks.get rest key

def Chunks.has (m : Chunks) (key : String) : Bool := (m.get key).isSome

/-- The method `Map.set`: replaces the value of an existing key in place,
appends a new key at the end. -/
def Chunks.set : Chunks → String → Grid → Chunks
  | [], key, g => [(key, g)]
  | (k, g0) :: rest, key, g =>
    if k = key then (k, g) :: rest else (k, g0) :: Chunks.set rest key g

/-- The world: chunk store, noise closure, seed, and the number of outcomes of
`Math.random()` consumed so far. -/
structure World where
  chunks : Chunks
  noise : Noise
  seed : Int
  draws : Nat
deriving DecidableEq

/-- The assignment `tiles[y][x] = v`. It raises when the row `tiles[y]` does
not exist. (Columns are only written inside the row length.) -/
def writeCell (tiles : Grid) (y : Int) (x : Nat) (v : Tile) : Option Grid :=
  if 0 ≤ y then
    match tiles[y.toNat]? with
    | some row => some (tiles.set y.toNat (row.set x v))
    | none => none
  else none

/-- The read `chunk[ly]?.[lx] ?? AIR`. -/
def readCell (chunk : Grid) (ly lx : Int) : Tile :=
  if 0 ≤ ly ∧ 0 ≤ lx then
    match chunk[ly.toNat]? with
    | some row => (row[lx.toNat]?).getD AIR
    | none => AIR
  else AIR

/-- The fresh grid `Array.from({length: CHUNK_H}, ()=> new Array(CHUNK_W).fill(AIR))`. -/
def freshTiles : Grid := List.replicate CHUNK_H.toNat (List.replicate CHUNK_W.toNat AIR)

/-- The value written at row `y` by the fill loop for a column of surface row
`height`. -/
def fillValue (y : Nat) (height : Int) : Tile :=
  if (y : Int) < height then AIR
  else if (y : Int) = height then GRASS
  else
    let depth := (y : Int) - height
    if depth < 3 then DIRT else STONE

/-- The inner loop `for (let y=0; y<CHUNK_H; y++)` of `getChunk`. -/
def fillColumn (tiles : Grid) (x : Nat) (height : Int) : Option Grid :=
  (List.range CHUNK_H.toNat).foldlM
    (fun t (y : Nat) => writeCell t (y : Int) x (fillValue y height)) tiles

/-- The tree block of `getChunk`: `roll` is the outcome of `Math.random()`,
`top` the recomputed surface row. -/
def sprinkleTree (tiles : Grid) (x : Nat) (top : Int) (roll : ℚ) : Option Grid :=
  if roll < 4 / 100 then
    if top + 1 < CHUNK_H - 5 then
      [1, 2, 3, 4].foldlM (fun t (k : Int) => writeCell t (top + k) x WOOD) tiles
    else some tiles
  else some tiles

/-- The body of the column loop of `getChunk` for column `x`, given the two
evaluations `height` and `top` of the surface expression and the tree roll. -/
def genColumn (tiles : Grid) (x : Nat) (height top : Int) (roll : ℚ) : Option Grid :=
  (fillColumn tiles x height).bind (fun t => sprinkleTree t x top roll)

/-- The generation part of `getChunk` (the path of an absent key): column `x`
uses outcome number `d + x` of the random stream. -/
def generate (R : Nat → ℚ) (noise : Noise) (d : Nat) (cx : Int) : Option Grid :=
  let baseX := cx * CHUNK_W
  (List.range CHUNK_W.toNat).foldlM
    (fun tiles (x : Nat) =>
      let wx := baseX + (x : Int)
      genColumn tiles x (surfaceHeight noise wx) (surfaceHeight noise wx) (R (d + x)))
    freshTiles

def getChunk (R : Nat → ℚ) (w : World) (cx cy : Int) : Option (Grid × World) :=
  let key := chunkKey cx cy
  match w.chunks.get key with
  | some g => some (g, w)
  | none =>
    (generate R w.noise w.draws cx).map (fun tiles =>
      (tiles, { w with chunks := w.chunks.set key tiles, draws := w.draws + CHUNK_W.toNat }))

/-! ## Utilities -/

structure ChunkTile where
  cx : Int
  cy : Int
  lx : Int
  ly : Int
deriving DecidableEq

def worldToChunkTile (wx wy : ℚ) : ChunkTile :=
  let tx : Int := Int.floor (wx / TILE)
  let ty : Int := Int.floor (wy / TILE)
  let cx : Int := Int.floor ((tx : ℚ) / CHUNK_W)
  let cy : Int := Int.floor ((ty : ℚ) / CHUNK_H)
  let lx : Int := Int.tmod (Int.tmod tx CHUNK_W + CHUNK_W) CHUNK_W
  let ly : Int := Int.tmod (Int.tmod ty CHUNK_H + CHUNK_H) CHUNK_H
  ⟨cx, cy, lx, ly⟩

/-- The function `getTile`; the branch `if (!chunk) return AIR` cannot be taken
because `getChunk` always returns an array. -/
def getTile (R : Nat → ℚ) (w : World) (wx wy : ℚ) : Option (Tile × World) :=
  let c := worldToChunkTile wx wy
  (getChunk R w c.cx c.cy).map (fun r => (readCell r.1 c.ly c.lx, r.2))

/-- The function `setTile`: the in-place write to the grid held by the map is
the replacement of the map entry. -/
def setTile (R : Nat → ℚ) (w : World) (wx wy : ℚ) (v : Tile) : Option World :=
  let c := worldToChunkTile wx wy
  (getChunk R w c.cx c.cy).bind (fun r =>
    if 0 ≤ c.ly ∧ c.ly < CHUNK_H ∧ 0 ≤ c.lx ∧ c.lx < CHUNK_W then
      (writeCell r.1 c.ly c.lx.toNat v).map (fun g =>
        { r.2 with chunks := r.2.chunks.set (chunkKey c.cx c.cy) g })
    else some r.2)

/-! ## Player update -/

structure Player where
  x : ℚ
  y : ℚ
  vx : ℚ
  vy : ℚ
  onGround : Bool

/-- The constant field `player.w`. -/
def Player.w : ℚ := 22

/-- The constant field `player.h`. -/
def Player.h : ℚ := 30

/-- The initial value of `player`. -/
def player : Player := ⟨0, -((TILE : ℚ) * 8), 0, 0, false⟩

structure Mouse where
  x : ℚ
  y : ℚ
  left : Bool
  right : Bool

/-- The whole mutable state read and written by `update`: `w` and `h` are the
viewport size set by `resize`. -/
structure Game where
  world : World
  player : Player
  keys : List String
  mouse : Mouse
  selectedBlock : Tile
  w : ℚ
  h : ℚ

def solid (v : Tile) : Bool := v != AIR

/-- The corner list `pts` of `collides`. -/
def pts (wx wy : ℚ) : List (ℚ × ℚ) :=
  let halfW := Player.w / 2
  let halfH := Player.h / 2
  [(wx - halfW, wy - halfH), (wx + halfW, wy - halfH),
   (wx - halfW, wy + halfH), (wx + halfW, wy + halfH)]

/-- The loop `for (const [px, py] of pts)` of `collides`, with its early
return. -/
def collidesLoop (R : Nat → ℚ) : World → List (ℚ × ℚ) → Option (Bool × World)
  | w, [] => some (false, w)
  | w, p :: rest =>
    (getTile R w p.1 p.2).bind (fun r =>
      if solid r.1 then some (true, r.2) else collidesLoop R r.2 rest)

def collides (R : Nat → ℚ) (w : World) (wx wy : ℚ) : Option (Bool × World) :=
  collidesLoop R w (pts wx wy)

/-- The function `Math.sign`. -/
def sign (delta : ℚ) : ℚ := if 0 < delta then 1 else if delta < 0 then -1 else 0

/-- Outcome of the loop of `stepAxis`: the value returned from inside the loop
(`none` when the loop ran to its end), the world, and the positions handed to
`collides` in call order (a ghost trace, not used by the program). -/
structure SweepResult where
  returned : Option ℚ
  world : World
  probes : List (ℚ × ℚ)

/-- The loop `for (let i=0; i<steps; i++)` of `stepAxis`, by recursion on the
number of remaining iterations; `nx`, `ny` are the loop variables. -/
def stepAxisLoop (R : Nat → ℚ) (sgn : ℚ) (horizontal : Bool) :
    Nat → World → ℚ → ℚ → Option SweepResult
  | 0, w, _, _ => some ⟨none, w, []⟩
  | n + 1, w, nx, ny =>
    let nx1 := if horizontal then nx + sgn else nx
    let ny1 := if horizontal then ny else ny + sgn
    (collides R w nx1 ny1).bind (fun r =>
      if r.1 then some ⟨some (if horizontal then nx1 - sgn else ny1 - sgn), r.2, [(nx1, ny1)]⟩
      else (stepAxisLoop R sgn horizontal n r.2 nx1 ny1).map (fun s =>
        { s with probes := (nx1, ny1) :: s.probes }))

/-- The number of iterations `Math.abs(Math.floor(delta))` of `stepAxis`. -/
def sweepSteps (delta : ℚ) : Nat := (Int.floor delta).natAbs

/-- The function `stepAxis` with the ghost trace of its loop: the loop is run
from `(x, y)` for `sweepSteps delta` iterations with step `sign delta`. -/
def stepAxisTrace (R : Nat → ℚ) (w : World) (x y delta : ℚ) (horizontal : Bool) :
    Option SweepResult :=
  stepAxisLoop R (sign delta) horizontal (sweepSteps delta) w x y

/-- The function `stepAxis`: the value returned from inside the loop, or
`x + delta` (`y + delta`) when the loop ran to its end. -/
def stepAxis (R : Nat → ℚ) (w : World) (x y delta : ℚ) (horizontal : Bool) :
    Option (ℚ × World) :=
  (stepAxisTrace R w x y delta horizontal).map (fun s =>
    match s.returned with
    | some p => (p, s.world)
    | none => (if horizontal then x + delta else y + delta, s.world))

structure Camera where
  x : ℚ
  y : ℚ

def getCamera (g : Game) : Camera :=
  let marginX := g.w * (1 / 2)
  let marginY := g.h * (45 / 100)
  ⟨g.player.x - marginX, max 0 (g.player.y - marginY)⟩

/-- The sections "Input" and "Gravity" of `update`. -/
def updateInput (g : Game) : Game :=
  let p := g.player
  let vx0 : ℚ := 0
  let vx1 := if g.keys.contains "a" then vx0 - MOVE_SPEED else vx0
  let vx2 := if g.keys.contains "d" then vx1 + MOVE_SPEED else vx1
  let jump := g.keys.contains "w" && p.onGround
  let vy1 := if jump then JUMP_VELOCITY else p.vy
  let og1 := if jump then false else p.onGround
  { g with player := { p with vx := vx2, vy := vy1 + GRAVITY, onGround := og1 } }

/-- The section "Horizontal move + collision" of `update`. -/
def updateHorizontal (R : Nat → ℚ) (g : Game) (dt : ℚ) : Option Game :=
  let p := g.player
  let nx := p.x + p.vx * dt
  (collides R g.world nx p.y).bind (fun r =>
    if r.1 then
      (stepAxis R r.2 p.x p.y (p.vx * dt) true).map (fun s =>
        { g with world := s.2, player := { p with x := s.1 } })
    else some { g with world := r.2, player := { p with x := nx } })

/-- The section "Vertical move + collision" of `update`, up to the clamp of
`player.y`. The local `ny` is computed and then dropped, as in the source. -/
def updateVertical (R : Nat → ℚ) (g : Game) (dt : ℚ) : Option Game :=
  let p := g.player
  let ny := p.y + p.vy * dt
  (collides R g.world p.x ny).bind (fun r =>
    if r.1 then
      let oldVy := p.vy
      (stepAxis R r.2 p.x p.y (p.vy * dt) false).map (fun s =>
        { g with world := s.2, player := { p with vy := 0, onGround := decide (0 < oldVy) } })
    else some { g with world := r.2, player := { p with onGround := false } })

/-- The statement `player.y = Math.min(player.y, MAX_WORLD_HEIGHT - TILE*2)`. -/
def updateClamp (g : Game) : Game :=
  { g with player := { g.player with y := min g.player.y ((MAX_WORLD_HEIGHT : ℚ) - TILE * 2) } }

/-- The pixel probed by the mining section, `(tx + 1, ty + 1)`: one pixel inside
the tile under the pointer. -/
def probePixel (g : Game) : ℚ × ℚ :=
  let camera := getCamera g
  let mxWorld := camera.x + g.mouse.x
  let myWorld := camera.y + g.mouse.y
  let tx : ℚ := (Int.floor (mxWorld / TILE) : ℚ) * TILE
  let ty : ℚ := (Int.floor (myWorld / TILE) : ℚ) * TILE
  (tx + 1, ty + 1)

/-- The section "Mining / Placing" of `update`. -/
def updateMining (R : Nat → ℚ) (g : Game) : Option Game :=
  let camera := getCamera g
  let mxWorld := camera.x + g.mouse.x
  let myWorld := camera.y + g.mouse.y
  let tx : ℚ := (Int.floor (mxWorld / TILE) : ℚ) * TILE
  let ty : ℚ := (Int.floor (myWorld / TILE) : ℚ) * TILE
  let afterLeft : Option World :=
    if g.mouse.left then
      (getTile R g.world (tx + 1) (ty + 1)).bind (fun r =>
        if r.1 ≠ AIR then setTile R r.2 (tx + 1) (ty + 1) AIR else some r.2)
    else some g.world
  afterLeft.bind (fun w1 =>
    let afterRight : Option World :=
      if g.mouse.right then
        (getTile R w1 (tx + 1) (ty + 1)).bind (fun r =>
          if r.1 = AIR then setTile R r.2 (tx + 1) (ty + 1) g.selectedBlock else some r.2)
      else some w1
    afterRight.map (fun w2 => { g with world := w2 }))

def update (R : Nat → ℚ) (g : Game) (dt : ℚ) : Option Game :=
  (updateHorizontal R (updateInput g) dt).bind (fun g1 =>
    (updateVertical R g1 dt).bind (fun g2 => updateMining R (updateClamp g2)))

/-! ## Well-formed states -/

/-- A grid has the dimensions of a chunk: `CHUNK_H` rows of `CHUNK_W` cells. -/
def GridWF (g : Grid) : Prop :=
  g.length = CHUNK_H.toNat ∧ ∀ row ∈ g, row.length = CHUNK_W.toNat

instance (g : Grid) : Decidable (GridWF g) := by unfold GridWF; infer_instance

/-- Every stored grid has the dimensions of a chunk (all grids put into the
store by `getChunk` have). -/
def World.WF (w : World) : Prop := ∀ kg ∈ w.chunks, GridWF kg.2

instance (w : World) : Decidable w.WF := by unfold World.WF; infer_instance

/-- The world `w2` extends `w1`: same noise, and every chunk stored in `w1` is
stored unchanged in `w2`. -/
def World.Extends (w2 w1 : World) : Prop :=
  w2.noise = w1.noise ∧ w2.seed = w1.seed ∧
    ∀ key g, w1.chunks.get key = some g → w2.chunks.get key = some g

/-- The number denoted by a list of decimal digit characters (the inverse of
`natDigits`, used to show that keys are injective). -/
def charsValue (cs : List Char) : Nat := cs.foldl (fun acc c => acc * 10 + (c.toNat - 48)) 0

/-! ## Sequences of tile operations -/

/-- An operation on the tile state: a read (`getTile`), a write (`setTile`),
or a chunk request (`getChunk`, as issued by the renderer). -/
inductive TileOp where
  | read (wx wy : ℚ)
  | write (wx wy : ℚ) (v : Tile)
  | fetch (cx cy : Int)

def TileOp.run (R : Nat → ℚ) (w : World) : TileOp → Option World
  | .read wx wy => (getTile R w wx wy).map Prod.snd
  | .write wx wy v => setTile R w wx wy v
  | .fetch cx cy => (getChunk R w cx cy).map Prod.snd

def runOps (R : Nat → ℚ) : World → List TileOp → Option World
  | w, [] => some w
  | w, o :: rest => (o.run R w).bind (fun w1 => runOps R w1 rest)

/-- The operation is a `setTile` on the tile that contains the pixel
`(wx, wy)`. -/
def TileOp.writesTile (o : TileOp) (wx wy : ℚ) : Prop :=
  match o with
  | .write x y _ => worldToChunkTile x y = worldToChunkTile wx wy
  | _ => False

instance (o : TileOp) (wx wy : ℚ) : Decidable (o.writesTile wx wy) := by
  unfold TileOp.writesTile; cases o <;> infer_instance

/-- The state at start-up for a given seed: `noise = makeNoise(seed)`,
`chunks = new Map()`, no random outcome consumed by the world yet. -/
def World.initial (seed : Int) : World := ⟨[], makeNoise seed, seed, 0⟩

/-- The keys of the store, in insertion order. -/
def World.keys (w : World) : List String := w.chunks.map Prod.fst

/-! ## Positions along the swept axis -/

/-- The box centre at offset `t` from `(x, y)` along the swept axis. -/
def along (horizontal : Bool) (x y t : ℚ) : ℚ × ℚ :=
  if horizontal then (x + t, y) else (x, y + t)

/-- The coordinate of `(x, y)` on the swept axis. -/
def axisCoord (horizontal : Bool) (x y : ℚ) : ℚ := if horizontal then x else y

/-! ## Scenarios -/

/-- A random source whose outcomes never place a tree. -/
def noTrees : Nat → ℚ := fun _ => 1 / 2

/-- A chunk of flat terrain with surface row 12 in every column: Air above,
Grass at row 12, Dirt at rows 13 and 14, Stone below. -/
def flatTiles : Grid :=
  List.replicate 12 (List.replicate 32 AIR) ++ [List.replicate 32 GRASS] ++
    List.replicate 2 (List.replicate 32 DIRT) ++ List.replicate 49 (List.replicate 32 STONE)

/-- A world of seed 0 whose store holds the chunk `(0, 0)` with flat terrain
(32 random outcomes consumed by its generation). -/
def flatWorld : World := ⟨[(chunkKey 0 0, flatTiles)], makeNoise 0, 0, 32⟩

/-- The game state of the penetration scenario in world `w`: the player
stands at `(14.5, 368)` on the ground, the key `d` is held. -/
def wallGame (w : World) : Game :=
  ⟨w, ⟨29 / 2, 368, 0, 0, true⟩, ["d"], ⟨0, 0, false, false⟩, DIRT, 800, 600⟩

/-- The penetration scenario. On flat terrain a Stone block is placed in the
tile at column 1, row 11 (just above the surface row 12), the player box at
`(14.5, 368)` is checked for collision, then the horizontal section of `update`
runs with `dt = 0.03` and the committed position is checked again. The result
is: collision before, committed `player.x`, collision after. -/
def wallScenario : Option (Bool × ℚ × Bool) :=
  (setTile noTrees flatWorld 40 360 STONE).bind (fun w =>
    (collides noTrees w (29 / 2) 368).bind (fun r0 =>
      (updateHorizontal noTrees (updateInput (wallGame r0.2)) (3 / 100)).bind (fun g =>
        (collides noTrees g.world g.player.x g.player.y).map (fun r =>
          (r0.1, g.player.x, r.1)))))

/-! ## The generated column -/

/-- The tile at row `y` of a generated column with surface row `height` and
tree roll `roll`: the trunk rows of a placed tree are Wood, the other rows have
the value of the fill loop. -/
def columnTile (height : Int) (roll : ℚ) (y : Int) : Tile :=
  if roll < 4 / 100 ∧ height + 1 < CHUNK_H - 5 ∧ height + 1 ≤ y ∧ y ≤ height + 4 then WOOD
  else fillValue y.toNat height

/-! ## Sequences of ticks -/

/-- What the event handlers and the frame scheduler provide for one tick: the
elapsed time `dt` and the input state (`keys`, `mouse`, `selectedBlock`). -/
structure Frame where
  dt : ℚ
  keys : List String
  mouse : Mouse
  selectedBlock : Tile

/-- One frame: the input state is the one of the frame, then `update(dt)`. -/
def tick (R : Nat → ℚ) (g : Game) (f : Frame) : Option Game :=
  update R { g with keys := f.keys, mouse := f.mouse, selectedBlock := f.selectedBlock } f.dt

def ticks (R : Nat → ℚ) : Game → List Frame → Option Game
  | g, [] => some g
  | g, f :: rest => (tick R g f).bind (fun g1 => ticks R g1 rest)

/-- A frame with no time elapsed and no input. -/
def idleFrame : Frame := ⟨0, [], ⟨0, 0, false, false⟩, DIRT⟩

/-- The player at `(16, 16)`, in the Air above flat terrain, at rest. -/
def floatGame : Game :=
  ⟨flatWorld, ⟨16, 16, 0, 0, false⟩, [], ⟨0, 0, false, false⟩, DIRT, 800, 600⟩

/-! ## Regeneration -/

/-- The conversion `x | 0`: truncation toward zero, then wrap-around into the
signed 32-bit range. -/
def toInt32 (q : ℚ) : Int :=
  let z : Int := if 0 ≤ q then Int.floor q else Int.ceil q
  (z + 2147483648) % 4294967296 - 2147483648

/-- The function `regenerate`: the next outcome of `Math.random()` gives the
new seed, the store is cleared, and the noise closure is replaced by
`makeNoise(seed)`. -/
def regenerate (R : Nat → ℚ) (w : World) : World :=
  let seed := toInt32 (R w.draws * 1000000000)
  { chunks := [], noise := makeNoise seed, seed := seed, draws := w.draws + 1 }

/-- The operation is a `setTile`. -/
def TileOp.isWrite : TileOp → Bool
  | .write _ _ _ => true
  | _ => false

/-- Every chunk in the store was generated under the noise `n` from random
outcomes number `d0` or later, and has not been written to. -/
def World.FreshFrom (R : Nat → ℚ) (n : Noise) (d0 : Nat) (w : World) : Prop :=
  w.noise = n ∧ d0 ≤ w.draws ∧
    ∀ (cx cy : Int) (g : Grid), w.chunks.get (chunkKey cx cy) = some g →
      ∀ (y : Int) (x : Nat), 0 ≤ y → y < CHUNK_H → (x : Int) < CHUNK_W →
        ∃ k, d0 ≤ k ∧ readCell g y x = columnTile (surfaceHeight n (cx * CHUNK_W + x)) (R k) y

/-- A game state with the primary input active and the pointer over the Grass
tile at column 3, row 12 of flat terrain. -/
def mineGame : Game :=
  ⟨flatWorld, ⟨29 / 2, 368, 0, 0, true⟩, [], ⟨500, 300, true, false⟩, DIRT, 800, 600⟩

/-! ## Properties -/

/-! ### Range of the noise -/

theorem shl32_lt (n k : Nat) : shl32 n k < 4294967296 := by
  unfold shl32; exact Nat.mod_lt _ (by norm_num)

theorem sar32_lt (n : Nat) (h : n < 4294967296) : sar32 n 17 < 4294967296 := by
  unfold sar32
  split
  · rw [Nat.shiftRight_eq_div_pow]; 
    exact lt_of_le_of_lt (Nat.div_le_self _ _) h
  · rw [Nat.shiftRight_eq_div_pow]
    have : n / 2 ^ 17 < 32768 := by
      apply Nat.div_lt_of_lt_mul; norm_num; omega
    norm_num; omega

theorem xor_lt (a b : Nat) (ha : a < 4294967296) (hb : b < 4294967296) :
    a ^^^ b < 4294967296 := by
  have := @Nat.xor_lt_two_pow a b 32 (by simpa using ha) (by simpa using hb)
  simpa using this

theorem rand_nonneg (n : Nat) : 0 ≤ rand n := by
  unfold rand; positivity

theorem rand_le_one (n : Nat) : rand n ≤ 1 := by
  unfold rand
  simp only
  have h0 : n % 4294967296 < 4294967296 := Nat.mod_lt _ (by norm_num)
  have h1 := xor_lt _ _ h0 (shl32_lt (n % 4294967296) 13)
  have h2 := xor_lt _ _ h1 (sar32_lt _ h1)
  have h3 := xor_lt _ _ h2 (shl32_lt
    (n % 4294967296 ^^^ shl32 (n % 4294967296) 13 ^^^
      sar32 (n % 4294967296 ^^^ shl32 (n % 4294967296) 13) 17) 5)
  rw [div_le_one (by norm_num)]
  exact_mod_cast Nat.le_of_lt_succ h3

theorem value1D_mem (noise : Noise) (x : ℚ) :
    0 ≤ noise.value1D x ∧ noise.value1D x ≤ 1 := by
  unfold Noise.value1D
  simp only
  have ht0 : 0 ≤ x - (⌊x⌋ : ℚ) := by linarith [Int.floor_le x]
  have ht1 : x - (⌊x⌋ : ℚ) < 1 := by linarith [Int.lt_floor_add_one x]
  generalize x - (⌊x⌋ : ℚ) = t at ht0 ht1
  have hu0 : 0 ≤ t * t * (3 - 2 * t) := by
    apply mul_nonneg (mul_nonneg ht0 ht0); linarith
  have hu1 : t * t * (3 - 2 * t) ≤ 1 := by
    nlinarith [mul_nonneg ht0 ht0, mul_nonneg (mul_nonneg ht0 ht0) (by linarith : (0:ℚ) ≤ 1 - t),
      mul_nonneg ht0 (by linarith : (0:ℚ) ≤ 1 - t), sq_nonneg (1 - t)]
  generalize t * t * (3 - 2 * t) = u at hu0 hu1
  have ha0 := rand_nonneg (toUint32 ⌊x⌋ ^^^ noise.s)
  have ha1 := rand_le_one (toUint32 ⌊x⌋ ^^^ noise.s)
  have hb0 := rand_nonneg (toUint32 (⌊x⌋ + 1) ^^^ noise.s)
  have hb1 := rand_le_one (toUint32 (⌊x⌋ + 1) ^^^ noise.s)
  generalize rand (toUint32 ⌊x⌋ ^^^ noise.s) = a at *
  generalize rand (toUint32 (⌊x⌋ + 1) ^^^ noise.s) = b at *
  constructor
  · have := mul_nonneg ha0 (by linarith : (0:ℚ) ≤ 1 - u)
    have := mul_nonneg hb0 hu0
    linarith
  · nlinarith [mul_nonneg (by linarith : (0:ℚ) ≤ 1 - a) (by linarith : (0:ℚ) ≤ 1 - u),
      mul_nonneg (by linarith : (0:ℚ) ≤ 1 - b) hu0]

theorem fbm_mem (noise : Noise) (x : ℚ) : -1 ≤ fbm noise x ∧ fbm noise x ≤ 11 / 4 := by
  unfold fbm
  simp only [List.range, List.range.loop, List.foldl, fbmStep]
  obtain ⟨h1, h1'⟩ := value1D_mem noise (x * 1)
  obtain ⟨h2, h2'⟩ := value1D_mem noise (x * (1 * 2))
  obtain ⟨h3, h3'⟩ := value1D_mem noise (x * (1 * 2 * 2))
  obtain ⟨h4, h4'⟩ := value1D_mem noise (x * (1 * 2 * 2 * 2))
  generalize noise.value1D (x * 1) = a at *
  generalize noise.value1D (x * (1 * 2)) = b at *
  generalize noise.value1D (x * (1 * 2 * 2)) = c at *
  generalize noise.value1D (x * (1 * 2 * 2 * 2)) = d at *
  constructor <;> linarith

theorem surfaceHeight_mem (noise : Noise) (wx : Int) :
    12 ≤ surfaceHeight noise wx ∧ surfaceHeight noise wx ≤ 42 := by
  unfold surfaceHeight
  have h := fbm_mem noise ((wx : ℚ) * (3 / 100))
  constructor
  · apply Int.le_floor.mpr; push_cast; linarith [h.1]
  · have : ⌊20 + 8 * fbm noise ((wx : ℚ) * (3 / 100))⌋ < 43 := by
      apply Int.floor_lt.mpr; push_cast; linarith [h.2]
    omega

/-! ### Generation succeeds and yields a chunk-sized grid -/

theorem foldlM_inv {α β : Type} (P : β → Prop) (Q : α → Prop) (f : β → α → Option β)
    (hf : ∀ b a, P b → Q a → ∃ b', f b a = some b' ∧ P b') :
    ∀ (l : List α), (∀ a ∈ l, Q a) → ∀ b, P b → ∃ b', l.foldlM f b = some b' ∧ P b' := by
  intro l
  induction l with
  | nil => intro _ b hb; exact ⟨b, rfl, hb⟩
  | cons a l ih =>
    intro hl b hb
    obtain ⟨b1, h1, hP1⟩ := hf b a hb (hl a (List.mem_cons_self a l))
    obtain ⟨b2, h2, hP2⟩ := ih (fun a' ha' => hl a' (List.mem_cons_of_mem a ha')) b1 hP1
    refine ⟨b2, ?_, hP2⟩
    rw [List.foldlM_cons, h1]
    exact h2

theorem freshTiles_wf : GridWF freshTiles := by
  unfold GridWF freshTiles
  refine ⟨List.length_replicate _ _, ?_⟩
  intro row hrow
  rw [List.eq_of_mem_replicate hrow]
  exact List.length_replicate _ _

theorem writeCell_wf (g : Grid) (y : Int) (x : Nat) (v : Tile) (hg : GridWF g)
    (h0 : 0 ≤ y) (h1 : y < CHUNK_H) : ∃ g', writeCell g y x v = some g' ∧ GridWF g' := by
  have hlt : y.toNat < g.length := by
    rw [hg.1]; unfold CHUNK_H at *; omega
  unfold writeCell
  rw [if_pos h0, List.getElem?_eq_getElem hlt]
  refine ⟨_, rfl, ?_, ?_⟩
  · rw [List.length_set]; exact hg.1
  · intro row hrow
    rcases List.mem_or_eq_of_mem_set hrow with h | h
    · exact hg.2 row h
    · rw [h, List.length_set]; exact hg.2 _ (List.getElem_mem _)

theorem fillColumn_wf (g : Grid) (x : Nat) (height : Int) (hg : GridWF g) :
    ∃ g', fillColumn g x height = some g' ∧ GridWF g' := by
  unfold fillColumn
  apply foldlM_inv GridWF (fun y : Nat => y < CHUNK_H.toNat)
  · intro b a hb ha
    apply writeCell_wf _ _ _ _ hb (by omega)
    unfold CHUNK_H at *; simp at ha; omega
  · intro a ha; exact List.mem_range.mp ha
  · exact hg

theorem sprinkleTree_wf (g : Grid) (x : Nat) (top : Int) (roll : ℚ) (hg : GridWF g)
    (htop : -1 ≤ top) : ∃ g', sprinkleTree g x top roll = some g' ∧ GridWF g' := by
  unfold sprinkleTree
  split
  · split
    · rename_i _ hfit
      apply foldlM_inv GridWF (fun k : Int => 1 ≤ k ∧ k ≤ 4)
      · intro b a hb ha
        apply writeCell_wf _ _ _ _ hb (by omega)
        unfold CHUNK_H at *; omega
      · intro a ha; simp at ha; omega
      · exact hg
    · exact ⟨g, rfl, hg⟩
  · exact ⟨g, rfl, hg⟩

theorem genColumn_wf (g : Grid) (x : Nat) (height top : Int) (roll : ℚ) (hg : GridWF g)
    (htop : -1 ≤ top) : ∃ g', genColumn g x height top roll = some g' ∧ GridWF g' := by
  obtain ⟨g1, h1, hw1⟩ := fillColumn_wf g x height hg
  obtain ⟨g2, h2, hw2⟩ := sprinkleTree_wf g1 x top roll hw1 htop
  exact ⟨g2, by unfold genColumn; rw [h1]; exact h2, hw2⟩

theorem generate_wf (R : Nat → ℚ) (noise : Noise) (d : Nat) (cx : Int) :
    ∃ g, generate R noise d cx = some g ∧ GridWF g := by
  unfold generate
  apply foldlM_inv GridWF (fun _ : Nat => True)
  · intro b a hb _
    apply genColumn_wf _ _ _ _ _ hb
    have := (surfaceHeight_mem noise (cx * CHUNK_W + (a : Int))).1
    omega
  · intro _ _; trivial
  · exact freshTiles_wf

/-! ### The chunk map -/

theorem Chunks.get_set (m : Chunks) (k k' : String) (g : Grid) :
    (m.set k g).get k' = if k = k' then some g else m.get k' := by
  induction m with
  | nil => simp [Chunks.set, Chunks.get]
  | cons e m ih =>
    obtain ⟨k0, g0⟩ := e
    by_cases h : k0 = k
    · subst h
      by_cases h' : k0 = k' <;> simp [Chunks.set, Chunks.get, h']
    · by_cases h' : k0 = k'
      · subst h'
        simp [Chunks.set, Chunks.get, h, Ne.symm h]
      · simp [Chunks.set, Chunks.get, h, h', ih]

theorem Chunks.set_of_get_none (m : Chunks) (k : String) (g : Grid) (h : m.get k = none) :
    m.set k g = m ++ [(k, g)] := by
  induction m with
  | nil => rfl
  | cons e m ih =>
    obtain ⟨k0, g0⟩ := e
    by_cases h0 : k0 = k
    · simp [Chunks.get, h0] at h
    · simp only [Chunks.get, h0, if_false] at h
      simp [Chunks.set, h0, ih h]

theorem Chunks.mem_set (m : Chunks) (k : String) (g : Grid) (e : String × Grid)
    (he : e ∈ m.set k g) : e ∈ m ∨ e = (k, g) := by
  induction m with
  | nil => simp [Chunks.set] at he; exact Or.inr he
  | cons e0 m ih =>
    obtain ⟨k0, g0⟩ := e0
    by_cases h0 : k0 = k
    · simp only [Chunks.set, h0, if_true, List.mem_cons] at he
      rcases he with he | he
      · exact Or.inr he
      · exact Or.inl (List.mem_cons_of_mem _ he)
    · simp only [Chunks.set, h0, if_false, List.mem_cons] at he
      rcases he with he | he
      · exact Or.inl (he ▸ List.mem_cons_self _ _)
      · rcases ih he with h | h
        · exact Or.inl (List.mem_cons_of_mem _ h)
        · exact Or.inr h

theorem Chunks.mem_of_get (m : Chunks) (k : String) (g : Grid) (h : m.get k = some g) :
    (k, g) ∈ m := by
  induction m with
  | nil => simp [Chunks.get] at h
  | cons e0 m ih =>
    obtain ⟨k0, g0⟩ := e0
    by_cases h0 : k0 = k
    · simp [Chunks.get, h0] at h
      simp [h0, h]
    · simp only [Chunks.get, h0, if_false] at h
      exact List.mem_cons_of_mem _ (ih h)

theorem Chunks.get_none_iff (m : Chunks) (k : String) :
    m.get k = none ↔ k ∉ m.map Prod.fst := by
  induction m with
  | nil => simp [Chunks.get]
  | cons e0 m ih =>
    obtain ⟨k0, g0⟩ := e0
    by_cases h0 : k0 = k
    · simp [Chunks.get, h0]
    · simp only [Chunks.get, h0, if_false, ih]
      simp [Ne.symm h0]

/-! ### Extension of worlds -/

theorem World.Extends.refl (w : World) : w.Extends w := ⟨rfl, rfl, fun _ _ h => h⟩

theorem World.Extends.trans {w3 w2 w1 : World} (h32 : w3.Extends w2) (h21 : w2.Extends w1) :
    w3.Extends w1 :=
  ⟨h32.1.trans h21.1, h32.2.1.trans h21.2.1, fun k g h => h32.2.2 k g (h21.2.2 k g h)⟩

/-! ### getChunk -/

theorem getChunk_present (R : Nat → ℚ) (w : World) (cx cy : Int) (g : Grid)
    (h : w.chunks.get (chunkKey cx cy) = some g) : getChunk R w cx cy = some (g, w) := by
  unfold getChunk; simp only [h]

theorem getChunk_absent (R : Nat → ℚ) (w : World) (cx cy : Int)
    (h : w.chunks.get (chunkKey cx cy) = none) :
    ∃ tiles, generate R w.noise w.draws cx = some tiles ∧ GridWF tiles ∧
      getChunk R w cx cy = some (tiles,
        { w with chunks := w.chunks ++ [(chunkKey cx cy, tiles)],
                 draws := w.draws + CHUNK_W.toNat }) := by
  obtain ⟨tiles, hgen, hwf⟩ := generate_wf R w.noise w.draws cx
  refine ⟨tiles, hgen, hwf, ?_⟩
  unfold getChunk
  simp only [h, hgen, Option.map_some', Chunks.set_of_get_none _ _ _ h]

/-- Whatever the world, `getChunk` returns a grid; the new world extends the
old one, holds the returned grid under the key, and stays well formed. -/
theorem getChunk_spec (R : Nat → ℚ) (w : World) (cx cy : Int) :
    ∃ g w', getChunk R w cx cy = some (g, w') ∧ w'.Extends w ∧
      w'.chunks.get (chunkKey cx cy) = some g ∧ (w.WF → w'.WF) := by
  cases h : w.chunks.get (chunkKey cx cy) with
  | some g =>
    exact ⟨g, w, getChunk_present R w cx cy g h, World.Extends.refl w, h, id⟩
  | none =>
    obtain ⟨tiles, _, hwf, hget⟩ := getChunk_absent R w cx cy h
    refine ⟨tiles, _, hget, ⟨rfl, rfl, ?_⟩, ?_, ?_⟩
    · intro key g hg
      have hne : chunkKey cx cy ≠ key := by
        intro he; rw [he] at h; rw [h] at hg; cases hg
      show Chunks.get (w.chunks ++ _) key = some g
      rw [← Chunks.set_of_get_none _ _ _ h, Chunks.get_set, if_neg hne]; exact hg
    · show Chunks.get (w.chunks ++ _) _ = some tiles
      rw [← Chunks.set_of_get_none _ _ _ h, Chunks.get_set, if_pos rfl]
    · intro hw kg hkg
      rcases List.mem_append.mp hkg with h1 | h1
      · exact hw kg h1
      · simp at h1; rw [h1]; exact hwf

/-- A call of `getChunk` that leaves the world unchanged found the key. -/
theorem getChunk_same_world (R : Nat → ℚ) (w : World) (cx cy : Int) (g : Grid)
    (h : getChunk R w cx cy = some (g, w)) : w.chunks.get (chunkKey cx cy) = some g := by
  cases hk : w.chunks.get (chunkKey cx cy) with
  | some g0 =>
    rw [getChunk_present R w cx cy g0 hk] at h
    simp at h; rw [h]
  | none =>
    obtain ⟨tiles, _, _, hget⟩ := getChunk_absent R w cx cy hk
    rw [hget] at h
    simp only [Option.some.injEq, Prod.mk.injEq] at h
    have := congrArg World.draws h.2
    simp [CHUNK_W] at this

/-! ### Coordinate mapping -/

/-- The idiom `((v % n) + n) % n`, written with the truncating remainder of
the language, is the Euclidean remainder (chunk width). -/
theorem tmod_add_tmod_w (v : Int) : Int.tmod (Int.tmod v 32 + 32) 32 = v % 32 := by
  cases v with
  | ofNat m =>
    have h : Int.tmod (Int.ofNat m) 32 = ((m % 32 : Nat) : Int) := rfl
    rw [h, Int.tmod_eq_emod (by omega) (by omega)]
    simp only [Int.ofNat_eq_coe]
    omega
  | negSucc m =>
    have h : Int.tmod (Int.negSucc m) 32 = -(((m + 1) % 32 : Nat) : Int) := rfl
    rw [h, Int.tmod_eq_emod (by omega) (by omega)]
    simp only [Int.negSucc_eq]
    omega

/-- The same for the chunk height. -/
theorem tmod_add_tmod_h (v : Int) : Int.tmod (Int.tmod v 64 + 64) 64 = v % 64 := by
  cases v with
  | ofNat m =>
    have h : Int.tmod (Int.ofNat m) 64 = ((m % 64 : Nat) : Int) := rfl
    rw [h, Int.tmod_eq_emod (by omega) (by omega)]
    simp only [Int.ofNat_eq_coe]
    omega
  | negSucc m =>
    have h : Int.tmod (Int.negSucc m) 64 = -(((m + 1) % 64 : Nat) : Int) := rfl
    rw [h, Int.tmod_eq_emod (by omega) (by omega)]
    simp only [Int.negSucc_eq]
    omega

theorem floor_div_w (t : Int) : Int.floor ((t : ℚ) / ((32 : Int) : ℚ)) = t / 32 := by
  have := Rat.floor_intCast_div_natCast t 32
  simpa using this

theorem floor_div_h (t : Int) : Int.floor ((t : ℚ) / ((64 : Int) : ℚ)) = t / 64 := by
  have := Rat.floor_intCast_div_natCast t 64
  simpa using this

/-- The tile column and row of a world pixel. -/
theorem worldToChunkTile_eq (wx wy : ℚ) :
    worldToChunkTile wx wy =
      ⟨⌊wx / 32⌋ / 32, ⌊wy / 32⌋ / 64, ⌊wx / 32⌋ % 32, ⌊wy / 32⌋ % 64⟩ := by
  unfold worldToChunkTile
  simp only [TILE, CHUNK_W, CHUNK_H, floor_div_w, floor_div_h, tmod_add_tmod_w, tmod_add_tmod_h]
  norm_num

/-! ### The key is injective -/

theorem digitChar_toNat (d : Nat) (hd : d < 10) : (Char.ofNat (48 + d)).toNat = 48 + d := by
  interval_cases d <;> rfl

theorem charsValue_append (cs : List Char) (c : Char) :
    charsValue (cs ++ [c]) = charsValue cs * 10 + (c.toNat - 48) := by
  unfold charsValue; rw [List.foldl_append]; rfl

theorem charsValue_natDigits (fuel n : Nat) (h : n < fuel) :
    charsValue (natDigits fuel n) = n := by
  induction fuel generalizing n with
  | zero => omega
  | succ fuel ih =>
    unfold natDigits
    split
    · rename_i hn
      simp [charsValue, digitChar_toNat n hn]
    · rename_i hn
      rw [charsValue_append, ih (n / 10) (by omega), digitChar_toNat _ (Nat.mod_lt _ (by norm_num))]
      omega

theorem natDigits_isDigit (fuel n : Nat) :
    ∀ c ∈ natDigits fuel n, 48 ≤ c.toNat ∧ c.toNat ≤ 57 := by
  induction fuel generalizing n with
  | zero => intro c hc; simp [natDigits] at hc
  | succ fuel ih =>
    intro c hc
    unfold natDigits at hc
    split at hc
    · rename_i hn
      simp only [List.mem_singleton] at hc
      rw [hc, digitChar_toNat n hn]; omega
    · rcases List.mem_append.mp hc with h | h
      · exact ih _ c h
      · simp only [List.mem_singleton] at h
        rw [h, digitChar_toNat _ (Nat.mod_lt _ (by norm_num))]
        have := Nat.mod_lt n (by norm_num : 0 < 10)
        omega

theorem natDigits_injective (a b : Nat)
    (h : natDigits (a + 1) a = natDigits (b + 1) b) : a = b := by
  have ha := charsValue_natDigits (a + 1) a (by omega)
  have hb := charsValue_natDigits (b + 1) b (by omega)
  rw [h] at ha
  omega

theorem numToChars_injective (a b : Int) (h : numToChars a = numToChars b) : a = b := by
  unfold numToChars at h
  have hminus : ∀ n : Nat, ('-' : Char) ∉ natDigits (n + 1) n := by
    intro n hmem
    have := natDigits_isDigit _ _ _ hmem
    have h45 : ('-' : Char).toNat = 45 := rfl
    omega
  by_cases ha : a < 0 <;> by_cases hb : b < 0
  · rw [if_pos ha, if_pos hb] at h
    have := natDigits_injective _ _ (List.cons.inj h).2
    omega
  · rw [if_pos ha, if_neg hb] at h
    exact absurd (h ▸ List.mem_cons_self _ _) (hminus _)
  · rw [if_neg ha, if_pos hb] at h
    exact absurd (h.symm ▸ List.mem_cons_self _ _) (hminus _)
  · rw [if_neg ha, if_neg hb] at h
    have := natDigits_injective _ _ h
    omega

theorem comma_not_mem_numToChars (a : Int) : (',' : Char) ∉ numToChars a := by
  intro hmem
  have h44 : (',' : Char).toNat = 44 := rfl
  unfold numToChars at hmem
  split at hmem
  · rcases List.mem_cons.mp hmem with h | h
    · exact absurd h (by decide)
    · have := natDigits_isDigit _ _ _ h; omega
  · have := natDigits_isDigit _ _ _ hmem; omega

theorem append_cons_cancel {α : Type} (c : α) :
    ∀ (l1 l2 r1 r2 : List α), c ∉ l1 → c ∉ l2 → l1 ++ c :: r1 = l2 ++ c :: r2 →
      l1 = l2 ∧ r1 = r2 := by
  intro l1
  induction l1 with
  | nil =>
    intro l2 r1 r2 _ h2 h
    cases l2 with
    | nil => simpa using h
    | cons b l2 =>
      simp only [List.nil_append, List.cons_append, List.cons.injEq] at h
      exact absurd (h.1 ▸ List.mem_cons_self _ _) h2
  | cons a l1 ih =>
    intro l2 r1 r2 h1 h2 h
    cases l2 with
    | nil =>
      simp only [List.nil_append, List.cons_append, List.cons.injEq] at h
      exact absurd (h.1 ▸ List.mem_cons_self _ _) h1
    | cons b l2 =>
      simp only [List.cons_append, List.cons.injEq] at h
      obtain ⟨e1, e2⟩ := ih l2 r1 r2 (fun hm => h1 (List.mem_cons_of_mem _ hm))
        (fun hm => h2 (List.mem_cons_of_mem _ hm)) h.2
      exact ⟨by rw [h.1, e1], e2⟩

theorem chunkKey_injective (cx cy cx' cy' : Int) (h : chunkKey cx cy = chunkKey cx' cy') :
    cx = cx' ∧ cy = cy' := by
  unfold chunkKey at h
  have h' : numToChars cx ++ ',' :: numToChars cy = numToChars cx' ++ ',' :: numToChars cy' :=
    congrArg String.data h
  obtain ⟨e1, e2⟩ := append_cons_cancel ',' _ _ _ _ (comma_not_mem_numToChars cx)
    (comma_not_mem_numToChars cx') h'
  exact ⟨numToChars_injective _ _ e1, numToChars_injective _ _ e2⟩

/-! ### Reading and writing cells -/

theorem readCell_writeCell (g g' : Grid) (y : Int) (x : Nat) (v : Tile) (hg : GridWF g)
    (hx : (x : Int) < CHUNK_W) (h : writeCell g y x v = some g') (y0 x0 : Int) :
    readCell g' y0 x0 = if y0 = y ∧ x0 = (x : Int) then v else readCell g y0 x0 := by
  unfold writeCell at h
  split at h
  · rename_i hy
    split at h
    · rename_i row hrow
      simp only [Option.some.injEq] at h
      subst h
      have hrowlen : row.length = CHUNK_W.toNat :=
        hg.2 row (List.mem_iff_getElem?.mpr ⟨_, hrow⟩)
      have hylt : y.toNat < g.length := by
        rcases List.getElem?_eq_some.mp hrow with ⟨hlt, _⟩; exact hlt
      unfold readCell
      by_cases h0 : 0 ≤ y0 ∧ 0 ≤ x0
      · rw [if_pos h0, if_pos h0, List.getElem?_set]
        by_cases hyy : y.toNat = y0.toNat
        · have hy0 : y0 = y := by omega
          rw [if_pos hyy, if_pos hylt]
          simp only [hy0, true_and]
          rw [List.getElem?_set]
          by_cases hxx : x = x0.toNat
          · have : x0 = (x : Int) := by omega
            rw [if_pos hxx, if_pos this, if_pos (by rw [hrowlen]; unfold CHUNK_W at *; omega)]
            rfl
          · have : ¬ x0 = (x : Int) := by omega
            rw [if_neg hxx, if_neg this, hrow]
        · have hy0 : ¬ y0 = y := by omega
          rw [if_neg hyy, if_neg (fun hc => hy0 hc.1)]
      · rw [if_neg h0, if_neg h0]
        have : ¬ (y0 = y ∧ x0 = (x : Int)) := by
          intro hc; apply h0; omega
        rw [if_neg this]
    · cases h
  · cases h

/-! ### getTile and setTile -/

theorem worldToChunkTile_bounds (wx wy : ℚ) :
    0 ≤ (worldToChunkTile wx wy).lx ∧ (worldToChunkTile wx wy).lx < CHUNK_W ∧
    0 ≤ (worldToChunkTile wx wy).ly ∧ (worldToChunkTile wx wy).ly < CHUNK_H := by
  rw [worldToChunkTile_eq]
  simp only [CHUNK_W, CHUNK_H]
  omega

theorem getTile_loaded (R : Nat → ℚ) (w : World) (wx wy : ℚ) (g : Grid)
    (h : w.chunks.get (chunkKey (worldToChunkTile wx wy).cx (worldToChunkTile wx wy).cy)
      = some g) :
    getTile R w wx wy =
      some (readCell g (worldToChunkTile wx wy).ly (worldToChunkTile wx wy).lx, w) := by
  unfold getTile
  simp only [getChunk_present R w _ _ g h, Option.map_some']

theorem getTile_same_world (R : Nat → ℚ) (w : World) (wx wy : ℚ) (v : Tile)
    (h : getTile R w wx wy = some (v, w)) :
    ∃ g, w.chunks.get (chunkKey (worldToChunkTile wx wy).cx (worldToChunkTile wx wy).cy)
        = some g ∧
      readCell g (worldToChunkTile wx wy).ly (worldToChunkTile wx wy).lx = v := by
  unfold getTile at h
  simp only [Option.map_eq_some', Prod.mk.injEq] at h
  obtain ⟨⟨g, w'⟩, hget, hv, hw⟩ := h
  simp only at hv hw
  subst hw
  exact ⟨g, getChunk_same_world R _ _ _ g hget, hv⟩

/-- A read that leaves the world unchanged gives the same value in every
extension of the world, and leaves that one unchanged too. -/
theorem getTile_stable (R : Nat → ℚ) (w w2 : World) (wx wy : ℚ) (v : Tile)
    (h : getTile R w wx wy = some (v, w)) (hext : w2.Extends w) :
    getTile R w2 wx wy = some (v, w2) := by
  obtain ⟨g, hg, hv⟩ := getTile_same_world R w wx wy v h
  rw [getTile_loaded R w2 wx wy g (hext.2.2 _ _ hg), hv]

/-- The function `getTile` always returns; the world it leaves extends the
old one and reads the same value again without changing. -/
theorem getTile_spec (R : Nat → ℚ) (w : World) (wx wy : ℚ) :
    ∃ v w', getTile R w wx wy = some (v, w') ∧ w'.Extends w ∧ (w.WF → w'.WF) ∧
      getTile R w' wx wy = some (v, w') := by
  obtain ⟨g, w', hget, hext, hkey, hwf⟩ :=
    getChunk_spec R w (worldToChunkTile wx wy).cx (worldToChunkTile wx wy).cy
  refine ⟨_, w', ?_, hext, hwf, getTile_loaded R w' wx wy g hkey⟩
  unfold getTile
  simp only [hget, Option.map_some']

theorem World.WF_set (w : World) (key : String) (g : Grid) (hw : w.WF) (hg : GridWF g) :
    World.WF { w with chunks := w.chunks.set key g } := by
  intro kg hkg
  rcases Chunks.mem_set _ _ _ _ hkg with h | h
  · exact hw kg h
  · rw [h]; exact hg

theorem World.WF_get (w : World) (key : String) (g : Grid) (hw : w.WF)
    (h : w.chunks.get key = some g) : GridWF g :=
  hw (key, g) (Chunks.mem_of_get _ _ _ h)

/-- In a well-formed world `setTile` returns: it fetches the chunk, writes the
cell and puts the grid back under the same key. -/
theorem setTile_spec (R : Nat → ℚ) (w : World) (wx wy : ℚ) (v : Tile) (hw : w.WF) :
    ∃ g w' g', getChunk R w (worldToChunkTile wx wy).cx (worldToChunkTile wx wy).cy
        = some (g, w') ∧ w'.Extends w ∧ w'.WF ∧
      w'.chunks.get (chunkKey (worldToChunkTile wx wy).cx (worldToChunkTile wx wy).cy)
        = some g ∧
      writeCell g (worldToChunkTile wx wy).ly (worldToChunkTile wx wy).lx.toNat v = some g' ∧
      GridWF g' ∧
      setTile R w wx wy v = some { w' with
        chunks := Chunks.set w'.chunks
          (chunkKey (worldToChunkTile wx wy).cx (worldToChunkTile wx wy).cy) g' } := by
  obtain ⟨g, w', hget, hext, hkey, hwf⟩ :=
    getChunk_spec R w (worldToChunkTile wx wy).cx (worldToChunkTile wx wy).cy
  have hb := worldToChunkTile_bounds wx wy
  have hgwf : GridWF g := World.WF_get w' _ g (hwf hw) hkey
  obtain ⟨g', hwr, hg'⟩ := writeCell_wf g (worldToChunkTile wx wy).ly
    (worldToChunkTile wx wy).lx.toNat v hgwf hb.2.2.1 hb.2.2.2
  refine ⟨g, w', g', hget, hext, hwf hw, hkey, hwr, hg', ?_⟩
  unfold setTile
  simp only [hget, Option.bind_eq_bind, Option.some_bind]
  rw [if_pos ⟨hb.2.2.1, hb.2.2.2, hb.1, hb.2.1⟩, hwr]
  rfl

/-! ### C1: mutation persistence -/

/-- The tile of pixel `(wx, wy)` is stored with value `v` in a well-formed
world. -/
theorem stored_step (R : Nat → ℚ) (w : World) (wx wy : ℚ) (v : Tile) (o : TileOp)
    (hw : w.WF) (hv : getTile R w wx wy = some (v, w)) (ho : ¬ o.writesTile wx wy) :
    ∃ w', o.run R w = some w' ∧ w'.WF ∧ getTile R w' wx wy = some (v, w') := by
  cases o with
  | read x y =>
    obtain ⟨v', w', hget, hext, hwf, _⟩ := getTile_spec R w x y
    exact ⟨w', by simp [TileOp.run, hget], hwf hw, getTile_stable R w w' wx wy v hv hext⟩
  | fetch cx cy =>
    obtain ⟨g, w', hget, hext, _, hwf⟩ := getChunk_spec R w cx cy
    exact ⟨w', by simp [TileOp.run, hget], hwf hw, getTile_stable R w w' wx wy v hv hext⟩
  | write x y v' =>
    obtain ⟨g, w', g', hget, hext, hwf', hkey, hwr, hg', hset⟩ := setTile_spec R w x y v' hw
    refine ⟨_, hset, World.WF_set w' _ g' hwf' hg', ?_⟩
    obtain ⟨g0, hg0, hread⟩ := getTile_same_world R w wx wy v hv
    have hg0' := hext.2.2 _ _ hg0
    by_cases hk : chunkKey (worldToChunkTile x y).cx (worldToChunkTile x y).cy
        = chunkKey (worldToChunkTile wx wy).cx (worldToChunkTile wx wy).cy
    · have hgg : g0 = g := by
        rw [hk, hg0'] at hkey; exact Option.some.inj hkey
      subst hgg
      have hb := worldToChunkTile_bounds x y
      have hcell := readCell_writeCell g0 g' _ _ v' (World.WF_get w' _ g0 hwf' hg0')
        (by rw [Int.toNat_of_nonneg hb.1]; exact hb.2.1) hwr
        (worldToChunkTile wx wy).ly (worldToChunkTile wx wy).lx
      rw [Int.toNat_of_nonneg hb.1] at hcell
      have hne : ¬ ((worldToChunkTile wx wy).ly = (worldToChunkTile x y).ly ∧
          (worldToChunkTile wx wy).lx = (worldToChunkTile x y).lx) := by
        intro hc
        apply ho
        obtain ⟨e1, e2⟩ := chunkKey_injective _ _ _ _ hk
        show worldToChunkTile x y = worldToChunkTile wx wy
        cases hA : worldToChunkTile x y
        cases hB : worldToChunkTile wx wy
        rw [hA, hB] at e1 e2 hc
        simp only at e1 e2 hc
        rw [e1, e2, hc.1, hc.2]
      rw [if_neg hne, hread] at hcell
      refine (getTile_loaded R _ wx wy g' ?_).trans (by rw [hcell])
      show Chunks.get (Chunks.set _ _ _) _ = _
      rw [Chunks.get_set, if_pos hk]
    · refine (getTile_loaded R _ wx wy g0 ?_).trans (by rw [hread])
      show Chunks.get (Chunks.set _ _ _) _ = _
      rw [Chunks.get_set, if_neg hk]; exact hg0'

theorem stored_runOps (R : Nat → ℚ) (wx wy : ℚ) (v : Tile) :
    ∀ (ops : List TileOp) (w : World), w.WF → getTile R w wx wy = some (v, w) →
      (∀ o ∈ ops, ¬ o.writesTile wx wy) →
      ∃ w', runOps R w ops = some w' ∧ w'.WF ∧ getTile R w' wx wy = some (v, w') := by
  intro ops
  induction ops with
  | nil => intro w hw hv _; exact ⟨w, rfl, hw, hv⟩
  | cons o ops ih =>
    intro w hw hv hops
    obtain ⟨w1, hrun, hw1, hv1⟩ :=
      stored_step R w wx wy v o hw hv (hops o (List.mem_cons_self _ _))
    obtain ⟨w2, hrun2, hw2, hv2⟩ :=
      ih w1 hw1 hv1 (fun o' ho' => hops o' (List.mem_cons_of_mem _ ho'))
    exact ⟨w2, by simp [runOps, hrun, hrun2], hw2, hv2⟩

theorem setTile_then_getTile (R : Nat → ℚ) (w : World) (wx wy : ℚ) (v : Tile) (hw : w.WF) :
    ∃ w1, setTile R w wx wy v = some w1 ∧ w1.WF ∧ getTile R w1 wx wy = some (v, w1) := by
  obtain ⟨g, w', g', hget, hext, hwf', hkey, hwr, hg', hset⟩ := setTile_spec R w wx wy v hw
  refine ⟨_, hset, World.WF_set w' _ g' hwf' hg', ?_⟩
  have hb := worldToChunkTile_bounds wx wy
  have hcell := readCell_writeCell g g' _ _ v (World.WF_get w' _ g hwf' hkey)
    (by rw [Int.toNat_of_nonneg hb.1]; exact hb.2.1) hwr
    (worldToChunkTile wx wy).ly (worldToChunkTile wx wy).lx
  rw [Int.toNat_of_nonneg hb.1, if_pos ⟨rfl, rfl⟩] at hcell
  refine (getTile_loaded R _ wx wy g' ?_).trans (by rw [hcell])
  show Chunks.get (Chunks.set _ _ _) _ = _
  rw [Chunks.get_set, if_pos rfl]

/-- C1 (mutation persistence). In a well-formed world, `setTile(wx, wy, v)`
returns, the following `getTile(wx, wy)` returns `v` and leaves the world
unchanged, and after any further sequence of reads, chunk requests and writes
to other tiles (no regeneration, no write to the same tile), `getTile(wx, wy)`
still returns `v`. -/
theorem mutation_persistence (R : Nat → ℚ) (w : World) (wx wy : ℚ) (v : Tile)
    (ops : List TileOp) (hw : w.WF) (hops : ∀ o ∈ ops, ¬ o.writesTile wx wy) :
    ∃ w1 w2, setTile R w wx wy v = some w1 ∧ getTile R w1 wx wy = some (v, w1) ∧
      runOps R w1 ops = some w2 ∧ getTile R w2 wx wy = some (v, w2) := by
  obtain ⟨w1, hset, hw1, hv1⟩ := setTile_then_getTile R w wx wy v hw
  obtain ⟨w2, hrun, _, hv2⟩ := stored_runOps R wx wy v ops w1 hw1 hv1 hops
  exact ⟨w1, w2, hset, hv1, hrun, hv2⟩

/-! ### C2, C4, C5: store uniqueness and coordinates -/

/-- C1 at the start-up world of seed 0: a Stone write at pixel `(0, 0)`, then a
read, a write to another tile and a chunk request. -/
theorem mutation_persistence_witness :
    (World.initial 0).WF ∧
    (∀ o ∈ [TileOp.read 40 40, TileOp.write 40 40 DIRT, TileOp.fetch 3 0],
      ¬ o.writesTile 0 0) ∧
    ∃ w1 w2, setTile (fun _ => 1 / 2) (World.initial 0) 0 0 STONE = some w1 ∧
      getTile (fun _ => 1 / 2) w1 0 0 = some (STONE, w1) ∧
      runOps (fun _ => 1 / 2) w1 [TileOp.read 40 40, TileOp.write 40 40 DIRT, TileOp.fetch 3 0]
        = some w2 ∧
      getTile (fun _ => 1 / 2) w2 0 0 = some (STONE, w2) :=
  ⟨by decide, by decide!,
    mutation_persistence (fun _ => 1 / 2) (World.initial 0) 0 0 STONE
      [TileOp.read 40 40, TileOp.write 40 40 DIRT, TileOp.fetch 3 0] (by decide) (by decide!)⟩

/-- C2 (chunk store uniqueness). `getChunk(cx, cy)` always returns. On a key
already present it returns the stored grid and the world (store, random
outcomes consumed) is unchanged. On an absent key the store gains exactly the
entry for `"cx,cy"`, appended, with the generated grid, and 32 random outcomes
are consumed. No other coordinate changes its entry, keys stay pairwise
distinct, and the key is injective on integer pairs. -/
theorem chunk_store_unique (R : Nat → ℚ) (w : World) (cx cy : Int) :
    ∃ g w', getChunk R w cx cy = some (g, w') ∧
      (match w.chunks.get (chunkKey cx cy) with
        | some g0 => g = g0 ∧ w' = w
        | none => chunkKey cx cy ∉ w.keys ∧ generate R w.noise w.draws cx = some g ∧
            w' = { w with chunks := w.chunks ++ [(chunkKey cx cy, g)],
                          draws := w.draws + 32 }) ∧
      (∀ cx' cy' : Int, (cx' = cx ∧ cy' = cy) ∨
        w'.chunks.get (chunkKey cx' cy') = w.chunks.get (chunkKey cx' cy')) ∧
      (w'.keys.Nodup ↔ w.keys.Nodup) ∧
      (∀ a b a' b' : Int, chunkKey a b = chunkKey a' b' ↔ a = a' ∧ b = b') := by
  have hinj : ∀ a b a' b' : Int, chunkKey a b = chunkKey a' b' ↔ a = a' ∧ b = b' :=
    fun a b a' b' => ⟨chunkKey_injective a b a' b', fun h => by rw [h.1, h.2]⟩
  cases h : w.chunks.get (chunkKey cx cy) with
  | some g0 =>
    exact ⟨g0, w, getChunk_present R w cx cy g0 h, ⟨rfl, rfl⟩, fun _ _ => Or.inr rfl,
      Iff.rfl, hinj⟩
  | none =>
    obtain ⟨tiles, hgen, _, hget⟩ := getChunk_absent R w cx cy h
    have hnot : chunkKey cx cy ∉ w.keys := (Chunks.get_none_iff _ _).mp h
    refine ⟨tiles, _, hget, ⟨hnot, hgen, rfl⟩, ?_, ?_, hinj⟩
    · intro cx' cy'
      by_cases hc : cx' = cx ∧ cy' = cy
      · exact Or.inl hc
      · right
        have hne : chunkKey cx cy ≠ chunkKey cx' cy' := by
          intro he; apply hc
          have := chunkKey_injective _ _ _ _ he
          exact ⟨this.1.symm, this.2.symm⟩
        show Chunks.get (w.chunks ++ _) _ = _
        rw [← Chunks.set_of_get_none _ _ _ h, Chunks.get_set, if_neg hne]
    · show (List.map Prod.fst (w.chunks ++ _)).Nodup ↔ _
      rw [List.map_append, List.nodup_append]
      simp only [List.map_cons, List.map_nil, List.nodup_cons, List.not_mem_nil,
        not_false_eq_true, List.nodup_nil, and_self, true_and, List.disjoint_singleton]
      exact ⟨fun hn => hn.1, fun hn => ⟨hn, hnot⟩⟩

/-- C4 (coordinate round trip). The chunk and local coordinates of a world
pixel recombine to its tile coordinates, the tile-origin pixel maps to the same
chunk and local coordinates, and `getTile` at the tile-origin pixel is the same
computation as `getTile` at the pixel itself; negative coordinates included. -/
theorem coordinate_round_trip (R : Nat → ℚ) (w : World) (wx wy : ℚ) :
    (worldToChunkTile wx wy).cx * CHUNK_W + (worldToChunkTile wx wy).lx = ⌊wx / TILE⌋ ∧
    (worldToChunkTile wx wy).cy * CHUNK_H + (worldToChunkTile wx wy).ly = ⌊wy / TILE⌋ ∧
    worldToChunkTile
        ((((worldToChunkTile wx wy).cx * CHUNK_W + (worldToChunkTile wx wy).lx) * TILE : Int) : ℚ)
        ((((worldToChunkTile wx wy).cy * CHUNK_H + (worldToChunkTile wx wy).ly) * TILE : Int) : ℚ)
      = worldToChunkTile wx wy ∧
    getTile R w
        ((((worldToChunkTile wx wy).cx * CHUNK_W + (worldToChunkTile wx wy).lx) * TILE : Int) : ℚ)
        ((((worldToChunkTile wx wy).cy * CHUNK_H + (worldToChunkTile wx wy).ly) * TILE : Int) : ℚ)
      = getTile R w wx wy := by
  have h1 : (worldToChunkTile wx wy).cx * CHUNK_W + (worldToChunkTile wx wy).lx
      = ⌊wx / TILE⌋ := by
    rw [worldToChunkTile_eq]; simp only [CHUNK_W, TILE]; push_cast; omega
  have h2 : (worldToChunkTile wx wy).cy * CHUNK_H + (worldToChunkTile wx wy).ly
      = ⌊wy / TILE⌋ := by
    rw [worldToChunkTile_eq]; simp only [CHUNK_H, TILE]; push_cast; omega
  have h3 : worldToChunkTile
        ((((worldToChunkTile wx wy).cx * CHUNK_W + (worldToChunkTile wx wy).lx) * TILE : Int) : ℚ)
        ((((worldToChunkTile wx wy).cy * CHUNK_H + (worldToChunkTile wx wy).ly) * TILE : Int) : ℚ)
      = worldToChunkTile wx wy := by
    rw [h1, h2, worldToChunkTile_eq, worldToChunkTile_eq]
    have e1 : ⌊(((⌊wx / (TILE : ℚ)⌋ * TILE : Int) : ℚ)) / 32⌋ = ⌊wx / 32⌋ := by
      simp only [TILE]; push_cast
      rw [mul_div_assoc, div_self (by norm_num), mul_one, Int.floor_intCast]
    have e2 : ⌊(((⌊wy / (TILE : ℚ)⌋ * TILE : Int) : ℚ)) / 32⌋ = ⌊wy / 32⌋ := by
      simp only [TILE]; push_cast
      rw [mul_div_assoc, div_self (by norm_num), mul_one, Int.floor_intCast]
    rw [e1, e2]
  refine ⟨h1, h2, h3, ?_⟩
  unfold getTile
  simp only [h3]

/-- C5 (local-coordinate positivity). For every world pixel the local
coordinates are the Euclidean remainders of the tile coordinates, so
`0 <= lx < CHUNK_W` and `0 <= ly < CHUNK_H` (tile coordinate `-1` gives local
coordinate `31`). In a well-formed world the row and the cell read by `getTile`
exist, so `getTile` returns the stored cell and not the default, and the guard
of `setTile` holds, so the write takes place. -/
theorem local_coordinate_positivity (R : Nat → ℚ) (w : World) (wx wy : ℚ) (v : Tile)
    (hw : w.WF) :
    (0 ≤ (worldToChunkTile wx wy).lx ∧ (worldToChunkTile wx wy).lx < CHUNK_W ∧
      0 ≤ (worldToChunkTile wx wy).ly ∧ (worldToChunkTile wx wy).ly < CHUNK_H) ∧
    (worldToChunkTile wx wy).lx = ⌊wx / TILE⌋ % CHUNK_W ∧
    (worldToChunkTile wx wy).ly = ⌊wy / TILE⌋ % CHUNK_H ∧
    (-1 : Int) % CHUNK_W = 31 ∧
    (∃ g w' row cell,
      getChunk R w (worldToChunkTile wx wy).cx (worldToChunkTile wx wy).cy = some (g, w') ∧
      g[(worldToChunkTile wx wy).ly.toNat]? = some row ∧
      row[(worldToChunkTile wx wy).lx.toNat]? = some cell ∧
      getTile R w wx wy = some (cell, w')) ∧
    (∃ w1, setTile R w wx wy v = some w1 ∧ getTile R w1 wx wy = some (v, w1)) := by
  have hb := worldToChunkTile_bounds wx wy
  refine ⟨hb, ?_, ?_, by decide, ?_, ?_⟩
  · rw [worldToChunkTile_eq]; rfl
  · rw [worldToChunkTile_eq]; rfl
  · obtain ⟨g, w', hget, _, hkey, hwf⟩ :=
      getChunk_spec R w (worldToChunkTile wx wy).cx (worldToChunkTile wx wy).cy
    have hg : GridWF g := World.WF_get w' _ g (hwf hw) hkey
    have hly : (worldToChunkTile wx wy).ly.toNat < g.length := by
      rw [hg.1]; unfold CHUNK_H at *; omega
    have hrow : (g[(worldToChunkTile wx wy).ly.toNat]).length = CHUNK_W.toNat :=
      hg.2 _ (List.getElem_mem _)
    have hlx : (worldToChunkTile wx wy).lx.toNat
        < (g[(worldToChunkTile wx wy).ly.toNat]).length := by
      rw [hrow]; unfold CHUNK_W at *; omega
    refine ⟨g, w', _, _, hget, List.getElem?_eq_getElem hly, List.getElem?_eq_getElem hlx, ?_⟩
    unfold getTile
    simp only [hget, Option.map_some', readCell]
    rw [if_pos ⟨hb.2.2.1, hb.1⟩, List.getElem?_eq_getElem hly]
    simp only [List.getElem?_eq_getElem hlx, Option.getD_some]
  · obtain ⟨w1, h1, _, h2⟩ := setTile_then_getTile R w wx wy v hw
    exact ⟨w1, h1, h2⟩

/-- C5 at the start-up world of seed 7 and the pixel `(-1, -40)`. -/
theorem local_coordinate_positivity_witness :
    (World.initial 7).WF ∧
    ((0 ≤ (worldToChunkTile (-1) (-40)).lx ∧ (worldToChunkTile (-1) (-40)).lx < CHUNK_W ∧
      0 ≤ (worldToChunkTile (-1) (-40)).ly ∧ (worldToChunkTile (-1) (-40)).ly < CHUNK_H) ∧
    (worldToChunkTile (-1) (-40)).lx = ⌊(-1 : ℚ) / TILE⌋ % CHUNK_W ∧
    (worldToChunkTile (-1) (-40)).ly = ⌊(-40 : ℚ) / TILE⌋ % CHUNK_H ∧
    (-1 : Int) % CHUNK_W = 31 ∧
    (∃ g w' row cell,
      getChunk (fun _ => 0) (World.initial 7) (worldToChunkTile (-1) (-40)).cx
        (worldToChunkTile (-1) (-40)).cy = some (g, w') ∧
      g[(worldToChunkTile (-1) (-40)).ly.toNat]? = some row ∧
      row[(worldToChunkTile (-1) (-40)).lx.toNat]? = some cell ∧
      getTile (fun _ => 0) (World.initial 7) (-1) (-40) = some (cell, w')) ∧
    (∃ w1, setTile (fun _ => 0) (World.initial 7) (-1) (-40) WOOD = some w1 ∧
      getTile (fun _ => 0) w1 (-1) (-40) = some (WOOD, w1))) :=
  ⟨by decide, local_coordinate_positivity (fun _ => 0) (World.initial 7) (-1) (-40) WOOD
    (by decide)⟩

/-! ### The cells of a generated grid -/

/-- A sequence of writes into column `x`, the value written at a row being a
function of the row: afterwards the written rows of column `x` hold their
values and every other cell is unchanged. -/
theorem foldlM_writes_read {α : Type} (x : Nat) (hx : (x : Int) < CHUNK_W) (row : α → Int)
    (val : α → Tile) (f : Int → Tile) :
    ∀ (l : List α) (t : Grid), GridWF t → (∀ a ∈ l, 0 ≤ row a ∧ row a < CHUNK_H) →
      (∀ a ∈ l, val a = f (row a)) →
      ∃ t', l.foldlM (fun t a => writeCell t (row a) x (val a)) t = some t' ∧ GridWF t' ∧
        ∀ y0 x0 : Int, readCell t' y0 x0 =
          if x0 = (x : Int) ∧ (∃ a ∈ l, row a = y0) then f y0 else readCell t y0 x0 := by
  intro l
  induction l with
  | nil =>
    intro t ht _ _
    refine ⟨t, rfl, ht, ?_⟩
    intro y0 x0; simp
  | cons a l ih =>
    intro t ht hrows hval
    obtain ⟨t1, hw1, ht1⟩ := writeCell_wf t (row a) x (val a) ht
      (hrows a (List.mem_cons_self _ _)).1 (hrows a (List.mem_cons_self _ _)).2
    have hread1 := readCell_writeCell t t1 (row a) x (val a) ht hx hw1
    obtain ⟨t', hfold, ht', hread⟩ := ih t1 ht1
      (fun b hb => hrows b (List.mem_cons_of_mem _ hb))
      (fun b hb => hval b (List.mem_cons_of_mem _ hb))
    refine ⟨t', ?_, ht', ?_⟩
    · rw [List.foldlM_cons, hw1]; exact hfold
    · intro y0 x0
      rw [hread y0 x0, hread1 y0 x0]
      by_cases hx0 : x0 = (x : Int)
      · by_cases hl : ∃ b ∈ l, row b = y0
        · have : ∃ b ∈ a :: l, row b = y0 := by
            obtain ⟨b, hb, e⟩ := hl; exact ⟨b, List.mem_cons_of_mem _ hb, e⟩
          rw [if_pos ⟨hx0, hl⟩, if_pos ⟨hx0, this⟩]
        · rw [if_neg (fun h => hl h.2)]
          by_cases hy : y0 = row a
          · rw [if_pos ⟨hy, hx0⟩, if_pos ⟨hx0, ⟨a, List.mem_cons_self _ _, hy.symm⟩⟩,
              hval a (List.mem_cons_self _ _), hy]
          · have : ¬ ∃ b ∈ a :: l, row b = y0 := by
              rintro ⟨b, hb, e⟩
              rcases List.mem_cons.mp hb with h | h
              · exact hy (by rw [← e, h])
              · exact hl ⟨b, h, e⟩
            rw [if_neg (fun h => hy h.1), if_neg (fun h => this h.2)]
      · rw [if_neg (fun h => hx0 h.1), if_neg (fun h => hx0 h.2), if_neg (fun h => hx0 h.1)]

theorem fillColumn_read (t : Grid) (x : Nat) (height : Int) (ht : GridWF t)
    (hx : (x : Int) < CHUNK_W) :
    ∃ t', fillColumn t x height = some t' ∧ GridWF t' ∧
      ∀ y0 x0 : Int, readCell t' y0 x0 =
        if x0 = (x : Int) ∧ 0 ≤ y0 ∧ y0 < CHUNK_H then fillValue y0.toNat height
        else readCell t y0 x0 := by
  obtain ⟨t', hfold, ht', hread⟩ := foldlM_writes_read x hx (fun y : Nat => (y : Int))
    (fun y : Nat => fillValue y height) (fun z : Int => fillValue z.toNat height)
    (List.range CHUNK_H.toNat) t ht
    (by intro a ha; have := List.mem_range.mp ha; simp [CHUNK_H] at this ⊢; omega)
    (by intro a _; simp)
  refine ⟨t', hfold, ht', ?_⟩
  intro y0 x0
  rw [hread y0 x0]
  have hiff : (∃ a ∈ List.range CHUNK_H.toNat, (a : Int) = y0) ↔ (0 ≤ y0 ∧ y0 < CHUNK_H) := by
    constructor
    · rintro ⟨a, ha, e⟩
      have := List.mem_range.mp ha
      simp [CHUNK_H] at this ⊢; omega
    · rintro ⟨h0, h1⟩
      refine ⟨y0.toNat, List.mem_range.mpr ?_, Int.toNat_of_nonneg h0⟩
      simp [CHUNK_H] at h1 ⊢; omega
  simp only [hiff]

theorem sprinkleTree_read (t : Grid) (x : Nat) (top : Int) (roll : ℚ) (ht : GridWF t)
    (hx : (x : Int) < CHUNK_W) (htop : -1 ≤ top) :
    ∃ t', sprinkleTree t x top roll = some t' ∧ GridWF t' ∧
      ∀ y0 x0 : Int, readCell t' y0 x0 =
        if x0 = (x : Int) ∧ roll < 4 / 100 ∧ top + 1 < CHUNK_H - 5 ∧ top + 1 ≤ y0 ∧
            y0 ≤ top + 4 then WOOD
        else readCell t y0 x0 := by
  unfold sprinkleTree
  by_cases hr : roll < 4 / 100
  · by_cases hfit : top + 1 < CHUNK_H - 5
    · rw [if_pos hr, if_pos hfit]
      obtain ⟨t', hfold, ht', hread⟩ := foldlM_writes_read x hx (fun k : Int => top + k)
        (fun _ : Int => WOOD) (fun _ : Int => WOOD) [1, 2, 3, 4] t ht
        (by intro a ha; simp at ha; simp [CHUNK_H] at hfit ⊢; omega)
        (by intro a _; rfl)
      refine ⟨t', hfold, ht', ?_⟩
      intro y0 x0
      rw [hread y0 x0]
      have hiff : (∃ a ∈ [(1 : Int), 2, 3, 4], top + a = y0) ↔ (top + 1 ≤ y0 ∧ y0 ≤ top + 4) := by
        constructor
        · rintro ⟨a, ha, e⟩; simp at ha; omega
        · rintro ⟨h0, h1⟩
          refine ⟨y0 - top, ?_, by ring⟩
          simp; omega
      simp only [hiff, hr, hfit, true_and]
    · rw [if_pos hr, if_neg hfit]
      refine ⟨t, rfl, ht, ?_⟩
      intro y0 x0
      rw [if_neg (fun h => hfit h.2.2.1)]
  · rw [if_neg hr]
    refine ⟨t, rfl, ht, ?_⟩
    intro y0 x0
    rw [if_neg (fun h => hr h.2.1)]

theorem genColumn_read (t : Grid) (x : Nat) (height : Int) (roll : ℚ) (ht : GridWF t)
    (hx : (x : Int) < CHUNK_W) (hh : -1 ≤ height) :
    ∃ t', genColumn t x height height roll = some t' ∧ GridWF t' ∧
      ∀ y0 x0 : Int, readCell t' y0 x0 =
        if x0 = (x : Int) ∧ 0 ≤ y0 ∧ y0 < CHUNK_H then columnTile height roll y0
        else readCell t y0 x0 := by
  obtain ⟨t1, h1, ht1, hread1⟩ := fillColumn_read t x height ht hx
  obtain ⟨t2, h2, ht2, hread2⟩ := sprinkleTree_read t1 x height roll ht1 hx hh
  refine ⟨t2, by unfold genColumn; rw [h1]; exact h2, ht2, ?_⟩
  intro y0 x0
  rw [hread2 y0 x0, hread1 y0 x0]
  unfold columnTile
  by_cases hx0 : x0 = (x : Int)
  · by_cases hin : 0 ≤ y0 ∧ y0 < CHUNK_H
    · by_cases htree : roll < 4 / 100 ∧ height + 1 < CHUNK_H - 5 ∧ height + 1 ≤ y0 ∧
          y0 ≤ height + 4
      · rw [if_pos ⟨hx0, htree⟩, if_pos ⟨hx0, hin⟩, if_pos htree]
      · rw [if_neg (fun h => htree h.2), if_pos ⟨hx0, hin⟩, if_pos ⟨hx0, hin⟩, if_neg htree]
    · have : ¬ (roll < 4 / 100 ∧ height + 1 < CHUNK_H - 5 ∧ height + 1 ≤ y0 ∧
          y0 ≤ height + 4) := by
        intro h; apply hin; simp [CHUNK_H] at h ⊢; omega
      rw [if_neg (fun h => this h.2), if_neg (fun h => hin h.2), if_neg (fun h => hin h.2)]
  · rw [if_neg (fun h => hx0 h.1), if_neg (fun h => hx0 h.1), if_neg (fun h => hx0 h.1)]

theorem foldlM_range_inv {β : Type} (P : Nat → β → Prop) (f : β → Nat → Option β) (N : Nat)
    (hf : ∀ n b, n < N → P n b → ∃ b', f b n = some b' ∧ P (n + 1) b') (b : β) (hb : P 0 b) :
    ∀ n, n ≤ N → ∃ b', (List.range n).foldlM f b = some b' ∧ P n b' := by
  intro n
  induction n with
  | zero => intro _; exact ⟨b, rfl, hb⟩
  | succ n ih =>
    intro hn
    obtain ⟨b1, h1, hP1⟩ := ih (by omega)
    obtain ⟨b2, h2, hP2⟩ := hf n b1 (by omega) hP1
    refine ⟨b2, ?_, hP2⟩
    rw [List.range_succ, List.foldlM_append, h1]
    simp [h2]

/-- The cells of a generated grid: column `x` of chunk column `cx` is the
generated column for the surface row of world column `cx*CHUNK_W + x` and the
tree roll number `d + x`. -/
theorem generate_read (R : Nat → ℚ) (noise : Noise) (d : Nat) (cx : Int) :
    ∃ g, generate R noise d cx = some g ∧ GridWF g ∧
      ∀ (y : Int) (x : Nat), 0 ≤ y → y < CHUNK_H → (x : Int) < CHUNK_W →
        readCell g y x = columnTile (surfaceHeight noise (cx * CHUNK_W + x)) (R (d + x)) y := by
  unfold generate
  obtain ⟨g, hfold, hg, hread⟩ := foldlM_range_inv
    (fun n (t : Grid) => GridWF t ∧ ∀ (y : Int) (x : Nat), 0 ≤ y → y < CHUNK_H → x < n →
      readCell t y x = columnTile (surfaceHeight noise (cx * CHUNK_W + x)) (R (d + x)) y)
    (fun tiles (x : Nat) =>
      genColumn tiles x (surfaceHeight noise (cx * CHUNK_W + (x : Int)))
        (surfaceHeight noise (cx * CHUNK_W + (x : Int))) (R (d + x)))
    CHUNK_W.toNat
    (by
      intro n t hn ⟨ht, hprev⟩
      have hn' : (n : Int) < CHUNK_W := by simp [CHUNK_W] at hn ⊢; omega
      have hh := (surfaceHeight_mem noise (cx * CHUNK_W + (n : Int))).1
      obtain ⟨t', hgen, ht', hread⟩ := genColumn_read t n
        (surfaceHeight noise (cx * CHUNK_W + (n : Int))) (R (d + n)) ht hn' (by omega)
      refine ⟨t', hgen, ht', ?_⟩
      intro y x hy0 hy1 hxn
      rw [hread y x]
      by_cases hx : x = n
      · subst hx
        rw [if_pos ⟨rfl, hy0, hy1⟩]
      · rw [if_neg (fun h => hx (by exact_mod_cast h.1))]
        exact hprev y x hy0 hy1 (by omega))
    freshTiles
    ⟨freshTiles_wf, fun y x _ _ hx => by omega⟩
    CHUNK_W.toNat (le_refl _)
  refine ⟨g, hfold, hg, ?_⟩
  intro y x hy0 hy1 hx
  exact hread y x hy0 hy1 (by simp [CHUNK_W] at hx ⊢; omega)

/-! ### C3: determinism of generation -/

theorem foldlM_congr_mem {α β : Type} (f f' : β → α → Option β) :
    ∀ (l : List α), (∀ a ∈ l, ∀ b, f b a = f' b a) → ∀ b, l.foldlM f b = l.foldlM f' b := by
  intro l
  induction l with
  | nil => intro _ b; rfl
  | cons a l ih =>
    intro h b
    rw [List.foldlM_cons, List.foldlM_cons, h a (List.mem_cons_self _ _) b]
    cases f' b a with
    | none => rfl
    | some b1 => exact ih (fun a' ha' => h a' (List.mem_cons_of_mem _ ha')) b1

theorem sprinkleTree_congr (tiles : Grid) (x : Nat) (top : Int) (r r' : ℚ)
    (h : r < 4 / 100 ↔ r' < 4 / 100) :
    sprinkleTree tiles x top r = sprinkleTree tiles x top r' := by
  unfold sprinkleTree
  by_cases hr : r < 4 / 100
  · rw [if_pos hr, if_pos (h.mp hr)]
  · rw [if_neg hr, if_neg (fun hc => hr (h.mpr hc))]

theorem generate_congr (R R' : Nat → ℚ) (noise : Noise) (d d' : Nat) (cx : Int)
    (h : ∀ x < 32, (R (d + x) < 4 / 100 ↔ R' (d' + x) < 4 / 100)) :
    generate R noise d cx = generate R' noise d' cx := by
  unfold generate
  apply foldlM_congr_mem
  intro x hx tiles
  have hx' : x < 32 := by simpa [CHUNK_W] using List.mem_range.mp hx
  simp only [genColumn]
  cases fillColumn tiles x (surfaceHeight noise (cx * CHUNK_W + (x : Int))) with
  | none => rfl
  | some t => exact sprinkleTree_congr t x _ _ _ (h x hx')

/-- C3, as stated, fails: with the same seed 42 and the same chunk coordinate
`(0, 0)`, a random source whose outcomes all place a tree and one whose
outcomes place none give different grids. -/
theorem generation_not_deterministic :
    (getChunk (fun _ => 0) (World.initial 42) 0 0).map Prod.fst
      ≠ (getChunk noTrees (World.initial 42) 0 0).map Prod.fst := by
  obtain ⟨g1, hgen1, _, hget1⟩ := getChunk_absent (fun _ => 0) (World.initial 42) 0 0 rfl
  obtain ⟨g2, hgen2, _, hget2⟩ := getChunk_absent noTrees (World.initial 42) 0 0 rfl
  obtain ⟨g1', hgen1', _, hread1⟩ :=
    generate_read (fun _ => 0) (World.initial 42).noise (World.initial 42).draws 0
  obtain ⟨g2', hgen2', _, hread2⟩ :=
    generate_read noTrees (World.initial 42).noise (World.initial 42).draws 0
  rw [hgen1] at hgen1'
  rw [hgen2] at hgen2'
  have e1 : g1' = g1 := (Option.some.inj hgen1').symm
  have e2 : g2' = g2 := (Option.some.inj hgen2').symm
  subst e1; subst e2
  rw [hget1, hget2]
  simp only [Option.map_some', ne_eq, Option.some.injEq]
  intro heq
  obtain ⟨hlo, hhi⟩ := surfaceHeight_mem (World.initial 42).noise 0
  have h1 := hread1 (surfaceHeight (World.initial 42).noise 0 + 1) 0
    (by omega) (by simp only [CHUNK_H]; omega) (by simp [CHUNK_W])
  have h2 := hread2 (surfaceHeight (World.initial 42).noise 0 + 1) 0
    (by omega) (by simp only [CHUNK_H]; omega) (by simp [CHUNK_W])
  simp only [Nat.cast_zero, zero_mul, add_zero] at h1 h2
  rw [heq, h2] at h1
  generalize surfaceHeight (World.initial 42).noise 0 = h at *
  have c1 : columnTile h 0 (h + 1) = WOOD := by
    unfold columnTile
    rw [if_pos ⟨by norm_num, by simp [CHUNK_H]; omega, le_refl _, by omega⟩]
  have c2 : columnTile h (noTrees (World.initial 42).draws) (h + 1) = DIRT := by
    unfold columnTile
    rw [if_neg (fun hc => by simp [noTrees] at hc; norm_num at hc)]
    unfold fillValue
    have e : ((h + 1).toNat : Int) = h + 1 := Int.toNat_of_nonneg (by omega)
    rw [e, if_neg (by omega), if_neg (by omega)]
    simp
  rw [c1, c2] at h1
  exact absurd h1 (by decide)

/-- C3, amended. The grid that `getChunk` generates for an absent coordinate
is a function of the seed, of `cx`, and of the 32 tree rolls (whether each
consumed outcome of the random source is below 0.04): two generations under the
same noise seed with the same `cx` (any `cy`, any store contents) and the same
tree rolls return the same grid. -/
theorem generation_determinism (R R' : Nat → ℚ) (w w' : World) (cx cy cy' : Int)
    (hseed : w.noise = w'.noise)
    (habs : w.chunks.get (chunkKey cx cy) = none)
    (habs' : w'.chunks.get (chunkKey cx cy') = none)
    (hroll : ∀ x < 32, (R (w.draws + x) < 4 / 100 ↔ R' (w'.draws + x) < 4 / 100)) :
    ∃ g w1 w1', getChunk R w cx cy = some (g, w1) ∧ getChunk R' w' cx cy' = some (g, w1') := by
  obtain ⟨g, hgen, _, hget⟩ := getChunk_absent R w cx cy habs
  obtain ⟨g', hgen', _, hget'⟩ := getChunk_absent R' w' cx cy' habs'
  have : g = g' := by
    rw [generate_congr R R' w.noise w.draws w'.draws cx hroll, hseed, hgen'] at hgen
    exact (Option.some.inj hgen).symm
  subst this
  exact ⟨g, _, _, hget, hget'⟩

/-- C3, amended, at seed 42 and chunk column 3: two random sources without
tree rolls, two values of `cy`. -/
theorem generation_determinism_witness :
    (World.initial 42).noise = (World.initial 42).noise ∧
    (World.initial 42).chunks.get (chunkKey 3 0) = none ∧
    (World.initial 42).chunks.get (chunkKey 3 (-1)) = none ∧
    (∀ x < 32, (((fun _ => 1 / 2) : Nat → ℚ) ((World.initial 42).draws + x) < 4 / 100
      ↔ ((fun _ => 3 / 4) : Nat → ℚ) ((World.initial 42).draws + x) < 4 / 100)) ∧
    ∃ g w1 w1', getChunk (fun _ => 1 / 2) (World.initial 42) 3 0 = some (g, w1) ∧
      getChunk (fun _ => 3 / 4) (World.initial 42) 3 (-1) = some (g, w1') :=
  ⟨rfl, rfl, rfl, by intro x _; norm_num,
    generation_determinism (fun _ => 1 / 2) (fun _ => 3 / 4) (World.initial 42)
      (World.initial 42) 3 0 (-1) rfl rfl rfl (by intro x _; norm_num)⟩

/-! ### collides -/

theorem getTile_congr (R : Nat → ℚ) (w : World) (px py qx qy : ℚ)
    (h : worldToChunkTile px py = worldToChunkTile qx qy) :
    getTile R w px py = getTile R w qx qy := by
  unfold getTile; rw [h]

/-- The loop of `collides` always returns, and its result is stable: in the
world it leaves, and in every extension of it, the loop returns the same value
without changing the world. -/
theorem collidesLoop_spec (R : Nat → ℚ) :
    ∀ (ps : List (ℚ × ℚ)) (w : World), ∃ b w', collidesLoop R w ps = some (b, w') ∧
      w'.Extends w ∧ (w.WF → w'.WF) ∧
      (∀ w2 : World, w2.Extends w' → collidesLoop R w2 ps = some (b, w2)) ∧
      (b = false → ∀ p ∈ ps, getTile R w' p.1 p.2 = some (AIR, w')) ∧
      (b = true → ∃ p ∈ ps, ∃ v, v ≠ AIR ∧ getTile R w' p.1 p.2 = some (v, w')) := by
  intro ps
  induction ps with
  | nil =>
    intro w
    exact ⟨false, w, rfl, World.Extends.refl w, id, fun _ _ => rfl,
      fun _ p hp => (by cases hp), fun h => (by cases h)⟩
  | cons p ps ih =>
    intro w
    obtain ⟨v, w1, hget, hext1, hwf1, hstab1⟩ := getTile_spec R w p.1 p.2
    by_cases hs : solid v = true
    · refine ⟨true, w1, ?_, hext1, hwf1, ?_, fun h => (by cases h), fun _ => ?_⟩
      · simp [collidesLoop, hget, hs]
      · intro w2 h2
        simp [collidesLoop, getTile_stable R w1 w2 p.1 p.2 v hstab1 h2, hs]
      · refine ⟨p, List.mem_cons_self _ _, v, ?_, hstab1⟩
        intro hv; rw [hv] at hs; simp [solid] at hs
    · obtain ⟨b, w', hloop, hext, hwf, hstab, hfalse, htrue⟩ := ih w1
      have hvair : v = AIR := by
        by_contra hne; apply hs; simp [solid, hne]
      refine ⟨b, w', ?_, hext.trans hext1, fun h => hwf (hwf1 h), ?_, ?_, ?_⟩
      · simp [collidesLoop, hget, hs, hloop]
      · intro w2 h2
        simp [collidesLoop, getTile_stable R w1 w2 p.1 p.2 v hstab1 (h2.trans hext), hs,
          hstab w2 h2]
      · intro hb q hq
        rcases List.mem_cons.mp hq with h | h
        · rw [h, ← hvair]; exact getTile_stable R w1 w' p.1 p.2 v hstab1 hext
        · exact hfalse hb q h
      · intro hb
        obtain ⟨q, hq, v', hv', hread⟩ := htrue hb
        exact ⟨q, List.mem_cons_of_mem _ hq, v', hv', hread⟩

theorem collides_spec (R : Nat → ℚ) (w : World) (wx wy : ℚ) :
    ∃ b w', collides R w wx wy = some (b, w') ∧ w'.Extends w ∧ (w.WF → w'.WF) ∧
      (∀ w2 : World, w2.Extends w' → collides R w2 wx wy = some (b, w2)) :=
  let ⟨b, w', h1, h2, h3, h4, _⟩ := collidesLoop_spec R (pts wx wy) w
  ⟨b, w', h1, h2, h3, h4⟩

/-- A call of `collides` that leaves the world unchanged returns the same
value in every extension of the world. -/
theorem collides_stable (R : Nat → ℚ) (w w2 : World) (wx wy : ℚ) (b : Bool)
    (h : collides R w wx wy = some (b, w)) (hext : w2.Extends w) :
    collides R w2 wx wy = some (b, w2) := by
  obtain ⟨b', w', h1, _, _, h4⟩ := collides_spec R w wx wy
  rw [h1] at h
  simp only [Option.some.injEq, Prod.mk.injEq] at h
  obtain ⟨hb, hw⟩ := h
  subst hb; subst hw
  exact h4 w2 hext

/-! ### C6: collision containment -/

/-- A point between two bounds less than a tile apart lies in the tile
column (row) of one of the bounds. -/
theorem floor_between (a b p : ℚ) (hap : a ≤ p) (hpb : p ≤ b) (hab : b - a < 32) :
    ⌊p / 32⌋ = ⌊a / 32⌋ ∨ ⌊p / 32⌋ = ⌊b / 32⌋ := by
  have h1 : ⌊a / 32⌋ ≤ ⌊p / 32⌋ := Int.floor_mono (by linarith)
  have h2 : ⌊p / 32⌋ ≤ ⌊b / 32⌋ := Int.floor_mono (by linarith)
  have h3 : ⌊b / 32⌋ < ⌊a / 32⌋ + 2 := by
    have ha : a / 32 < (⌊a / 32⌋ : ℚ) + 1 := Int.lt_floor_add_one _
    have : b / 32 < ((⌊a / 32⌋ + 2 : Int) : ℚ) := by push_cast; linarith
    exact Int.floor_lt.mpr this
  omega

/-- Every point of the player box lies in the tile of one of the four
corners. -/
theorem box_point_corner (wx wy px py : ℚ)
    (hx1 : wx - 11 ≤ px) (hx2 : px ≤ wx + 11) (hy1 : wy - 15 ≤ py) (hy2 : py ≤ wy + 15) :
    ∃ q ∈ pts wx wy, worldToChunkTile px py = worldToChunkTile q.1 q.2 := by
  have hX := floor_between (wx - 11) (wx + 11) px hx1 hx2 (by linarith)
  have hY := floor_between (wy - 15) (wy + 15) py hy1 hy2 (by linarith)
  have hpts : pts wx wy = [(wx - 11, wy - 15), (wx + 11, wy - 15),
      (wx - 11, wy + 15), (wx + 11, wy + 15)] := by
    simp only [pts, Player.w, Player.h]; norm_num
  rw [hpts]
  rcases hX with hX | hX <;> rcases hY with hY | hY
  · exact ⟨(wx - 11, wy - 15), by simp, by simp only [worldToChunkTile_eq, hX, hY]⟩
  · exact ⟨(wx - 11, wy + 15), by simp, by simp only [worldToChunkTile_eq, hX, hY]⟩
  · exact ⟨(wx + 11, wy - 15), by simp, by simp only [worldToChunkTile_eq, hX, hY]⟩
  · exact ⟨(wx + 11, wy + 15), by simp, by simp only [worldToChunkTile_eq, hX, hY]⟩

theorem corner_in_box (wx wy : ℚ) (q : ℚ × ℚ) (hq : q ∈ pts wx wy) :
    wx - 11 ≤ q.1 ∧ q.1 ≤ wx + 11 ∧ wy - 15 ≤ q.2 ∧ q.2 ≤ wy + 15 := by
  have hpts : pts wx wy = [(wx - 11, wy - 15), (wx + 11, wy - 15),
      (wx - 11, wy + 15), (wx + 11, wy + 15)] := by
    simp only [pts, Player.w, Player.h]; norm_num
  rw [hpts] at hq
  simp only [List.mem_cons, List.mem_singleton, List.not_mem_nil, or_false] at hq
  rcases hq with h | h | h | h <;> rw [h] <;> simp <;> constructor <;> linarith

/-- C6 (collision containment). `collides(wx, wy)` always returns. Every tile
that was loaded before the call is unchanged after it. In the tile state the
call leaves, the result is `false` exactly when every point of the player box
`[wx-11, wx+11] x [wy-15, wy+15]` reads Air, and `true` exactly when some point
of the box reads a solid tile: the four-corner test agrees with the test of
every point of the box. -/
theorem collision_containment (R : Nat → ℚ) (w : World) (wx wy : ℚ) :
    ∃ b w', collides R w wx wy = some (b, w') ∧
      (∀ px py v, getTile R w px py = some (v, w) → getTile R w' px py = some (v, w')) ∧
      (b = false ↔ ∀ px py, wx - 11 ≤ px → px ≤ wx + 11 → wy - 15 ≤ py → py ≤ wy + 15 →
        getTile R w' px py = some (AIR, w')) ∧
      (b = true ↔ ∃ px py v, wx - 11 ≤ px ∧ px ≤ wx + 11 ∧ wy - 15 ≤ py ∧ py ≤ wy + 15 ∧
        v ≠ AIR ∧ getTile R w' px py = some (v, w')) := by
  obtain ⟨b, w', hcol, hext, _, _, hfalse, htrue⟩ := collidesLoop_spec R (pts wx wy) w
  have hall : b = false → ∀ px py, wx - 11 ≤ px → px ≤ wx + 11 → wy - 15 ≤ py →
      py ≤ wy + 15 → getTile R w' px py = some (AIR, w') := by
    intro hb px py hx1 hx2 hy1 hy2
    obtain ⟨q, hq, hsame⟩ := box_point_corner wx wy px py hx1 hx2 hy1 hy2
    rw [getTile_congr R w' px py q.1 q.2 hsame]
    exact hfalse hb q hq
  have hsome : b = true → ∃ px py v, wx - 11 ≤ px ∧ px ≤ wx + 11 ∧ wy - 15 ≤ py ∧
      py ≤ wy + 15 ∧ v ≠ AIR ∧ getTile R w' px py = some (v, w') := by
    intro hb
    obtain ⟨q, hq, v, hv, hread⟩ := htrue hb
    obtain ⟨h1, h2, h3, h4⟩ := corner_in_box wx wy q hq
    exact ⟨q.1, q.2, v, h1, h2, h3, h4, hv, hread⟩
  refine ⟨b, w', hcol, fun px py v h => getTile_stable R w w' px py v h hext, ⟨hall, ?_⟩,
    ⟨hsome, ?_⟩⟩
  · intro h
    cases hb : b with
    | false => rfl
    | true =>
      obtain ⟨px, py, v, h1, h2, h3, h4, hv, hread⟩ := hsome hb
      rw [h px py h1 h2 h3 h4] at hread
      simp only [Option.some.injEq, Prod.mk.injEq, and_true] at hread
      exact absurd hread.symm hv
  · rintro ⟨px, py, v, h1, h2, h3, h4, hv, hread⟩
    cases hb : b with
    | true => rfl
    | false =>
      rw [hall hb px py h1 h2 h3 h4] at hread
      simp only [Option.some.injEq, Prod.mk.injEq, and_true] at hread
      exact absurd hread.symm hv

/-! ### stepAxis -/

/-- The loop of `stepAxis` run for `n` iterations from `(nx, ny)` always
returns. Probe number `i` (from 0) is the position `i + 1` steps from the
start. Either no probe collides, there are `n` probes and the loop ends
without returning; or the probe number `k < n` is the first to collide, it is
the last probe, and the loop returns the coordinate `k` steps from the start.
Collisions are stated in the world the loop leaves, which they do not change. -/
theorem stepAxisLoop_spec (R : Nat → ℚ) (sgn : ℚ) (hz : Bool) :
    ∀ (n : Nat) (w : World) (nx ny : ℚ),
      ∃ s, stepAxisLoop R sgn hz n w nx ny = some s ∧ s.world.Extends w ∧
        (w.WF → s.world.WF) ∧
        (∀ i, i < s.probes.length →
          s.probes[i]? = some (along hz nx ny (((i : ℚ) + 1) * sgn))) ∧
        ((s.returned = none ∧ s.probes.length = n ∧
            ∀ i, i < n → collides R s.world (along hz nx ny (((i : ℚ) + 1) * sgn)).1
              (along hz nx ny (((i : ℚ) + 1) * sgn)).2 = some (false, s.world)) ∨
          (∃ k, k < n ∧ s.probes.length = k + 1 ∧
            s.returned = some (axisCoord hz nx ny + (k : ℚ) * sgn) ∧
            (∀ i, i < k → collides R s.world (along hz nx ny (((i : ℚ) + 1) * sgn)).1
              (along hz nx ny (((i : ℚ) + 1) * sgn)).2 = some (false, s.world)) ∧
            collides R s.world (along hz nx ny (((k : ℚ) + 1) * sgn)).1
              (along hz nx ny (((k : ℚ) + 1) * sgn)).2 = some (true, s.world))) := by
  intro n
  induction n with
  | zero =>
    intro w nx ny
    refine ⟨⟨none, w, []⟩, rfl, World.Extends.refl w, id, ?_, Or.inl ⟨rfl, rfl, ?_⟩⟩
    · intro i hi; simp at hi
    · intro i hi; omega
  | succ n ih =>
    intro w nx ny
    have hfirst : ((if hz then nx + sgn else nx), (if hz then ny else ny + sgn))
        = along hz nx ny ((((0 : Nat) : ℚ) + 1) * sgn) := by
      cases hz <;> simp [along]
    have hshift : ∀ t : ℚ, along hz (if hz then nx + sgn else nx)
        (if hz then ny else ny + sgn) (t * sgn) = along hz nx ny ((t + 1) * sgn) := by
      intro t; cases hz <;> simp [along] <;> ring
    obtain ⟨c, w1, hcol, hext1, hwf1, hstab1⟩ :=
      collides_spec R w (if hz then nx + sgn else nx) (if hz then ny else ny + sgn)
    cases c with
    | true =>
      refine ⟨⟨some (if hz then (if hz then nx + sgn else nx) - sgn
          else (if hz then ny else ny + sgn) - sgn), w1,
          [((if hz then nx + sgn else nx), (if hz then ny else ny + sgn))]⟩,
        ?_, hext1, hwf1, ?_, Or.inr ⟨0, Nat.succ_pos n, rfl, ?_, ?_, ?_⟩⟩
      · simp [stepAxisLoop, hcol]
      · intro i hi
        have hi0 : i = 0 := by simpa using hi
        subst hi0
        simp only [List.getElem?_cons_zero, hfirst]
      · cases hz <;> simp [axisCoord]
      · intro i hi; omega
      · rw [← hfirst]; exact hstab1 w1 (World.Extends.refl w1)
    | false =>
      obtain ⟨s, hloop, hext, hwf, hprobes, hcases⟩ :=
        ih w1 (if hz then nx + sgn else nx) (if hz then ny else ny + sgn)
      have hfirst_ok : collides R s.world (along hz nx ny ((((0 : Nat) : ℚ) + 1) * sgn)).1
          (along hz nx ny ((((0 : Nat) : ℚ) + 1) * sgn)).2 = some (false, s.world) := by
        rw [← hfirst]; exact hstab1 s.world hext
      refine ⟨{ s with probes :=
          ((if hz then nx + sgn else nx), (if hz then ny else ny + sgn)) :: s.probes },
        ?_, hext.trans hext1, fun h => hwf (hwf1 h), ?_, ?_⟩
      · simp [stepAxisLoop, hcol, hloop]
      · intro i hi
        cases i with
        | zero => simp only [List.getElem?_cons_zero, hfirst]
        | succ j =>
          simp only [List.length_cons, Nat.succ_lt_succ_iff] at hi
          simp only [List.getElem?_cons_succ]
          rw [hprobes j hi, hshift]
          push_cast; rfl
      · rcases hcases with ⟨hret, hlen, hall⟩ | ⟨k, hk, hlen, hret, hbefore, hhit⟩
        · refine Or.inl ⟨hret, by simp [hlen], ?_⟩
          intro i hi
          cases i with
          | zero => exact hfirst_ok
          | succ j =>
            have := hall j (by omega)
            rw [hshift] at this
            push_cast; exact this
        · refine Or.inr ⟨k + 1, by omega, by simp [hlen], ?_, ?_, ?_⟩
          · rw [hret]
            cases hz <;> simp [axisCoord] <;> ring
          · intro i hi
            cases i with
            | zero => exact hfirst_ok
            | succ j =>
              have := hbefore j (by omega)
              rw [hshift] at this
              push_cast; exact this
          · rw [hshift] at hhit
            push_cast; exact hhit

/-! ### C7 and C8: the sweep -/

theorem along_zero (hz : Bool) (x y : ℚ) : along hz x y 0 = (x, y) := by
  cases hz <;> simp [along]

theorem sign_of_steps (delta : ℚ) (h : 0 < sweepSteps delta) :
    sign delta = 1 ∨ sign delta = -1 := by
  unfold sign
  by_cases hp : 0 < delta
  · left; rw [if_pos hp]
  · right
    have hne : delta ≠ 0 := by
      intro h0; rw [h0] at h; simp [sweepSteps] at h
    have hneg : delta < 0 := lt_of_le_of_ne (not_lt.mp hp) hne
    rw [if_neg hp, if_pos hneg]

/-- For a non-negative displacement the number of loop iterations is
`floor(|delta|)`. -/
theorem sweepSteps_of_nonneg (delta : ℚ) (h : 0 ≤ delta) :
    (sweepSteps delta : Int) = ⌊|delta|⌋ := by
  unfold sweepSteps
  rw [abs_of_nonneg h, Int.natCast_natAbs, abs_of_nonneg (Int.floor_nonneg.mpr h)]

/-- For a negative whole displacement the number of loop iterations is
`floor(|delta|)`. -/
theorem sweepSteps_of_neg_int (delta : ℚ) (h : delta < 0) (hint : (⌊delta⌋ : ℚ) = delta) :
    (sweepSteps delta : Int) = ⌊|delta|⌋ := by
  unfold sweepSteps
  have hfl : ⌊delta⌋ < 0 := by
    have : (⌊delta⌋ : ℚ) < 0 := by rw [hint]; exact h
    exact_mod_cast this
  have e : ⌊|delta|⌋ = -⌊delta⌋ := by
    rw [abs_of_neg h, Int.floor_eq_iff]
    push_cast
    constructor <;> linarith
  rw [Int.natCast_natAbs, abs_of_neg hfl, e]

/-- For a negative displacement that is not whole the number of loop
iterations is `floor(|delta|) + 1`. -/
theorem sweepSteps_of_neg_frac (delta : ℚ) (h : delta < 0) (hfrac : (⌊delta⌋ : ℚ) ≠ delta) :
    (sweepSteps delta : Int) = ⌊|delta|⌋ + 1 := by
  unfold sweepSteps
  have hle : (⌊delta⌋ : ℚ) ≤ delta := Int.floor_le delta
  have hlt : (⌊delta⌋ : ℚ) < delta := lt_of_le_of_ne hle hfrac
  have hfl : ⌊delta⌋ < 0 := by
    have : (⌊delta⌋ : ℚ) < 0 := lt_of_le_of_lt hle h
    exact_mod_cast this
  have e : ⌊|delta|⌋ = -⌊delta⌋ - 1 := by
    rw [abs_of_neg h, Int.floor_eq_iff]
    have := Int.lt_floor_add_one delta
    push_cast
    constructor <;> linarith
  rw [Int.natCast_natAbs, abs_of_neg hfl, e]
  ring

/-- C7, failing input. For `delta = -0.5` the sweep probes one position, a
whole pixel from the start, although `floor(|delta|) = 0`. -/
theorem sweep_probes_exceed_floor_abs :
    ∃ s, stepAxisTrace noTrees (World.initial 0) 0 (-256) (-1 / 2) false = some s ∧
      s.probes = [(0, -257)] ∧ sweepSteps (-1 / 2) = 1 ∧ ⌊|(-1 / 2 : ℚ)|⌋ = 0 := by
  have hsteps : sweepSteps (-1 / 2) = 1 := by decide!
  have hsign : sign (-1 / 2) = -1 := by decide!
  obtain ⟨s, hloop, _, _, hprobes, hcases⟩ :=
    stepAxisLoop_spec noTrees (-1) false 1 (World.initial 0) 0 (-256)
  have hlen : s.probes.length = 1 := by
    rcases hcases with ⟨_, hlen, _⟩ | ⟨k, hk, hlen, _⟩
    · exact hlen
    · omega
  have habs : ⌊|(-1 / 2 : ℚ)|⌋ = 0 := by
    rw [Int.floor_eq_iff, abs_of_neg (by norm_num)]; norm_num
  refine ⟨s, ?_, ?_, hsteps, habs⟩
  · unfold stepAxisTrace; rw [hsteps, hsign]; exact hloop
  · have h0 := hprobes 0 (by omega)
    match hs : s.probes, hlen, h0 with
    | [q], _, h0 =>
      simp only [List.getElem?_cons_zero, Option.some.injEq] at h0
      rw [h0]; simp [along]; norm_num

/-- C8 (sweep result). From a start position that does not collide, `stepAxis`
always returns. Its probes are the positions 1, 2, ... pixels from the start in
the direction `sign(delta)`. Either none of the `sweepSteps delta` probes
collides and the result is `start + delta`; or some probe collides, the first
colliding probe `k + 1` pixels away is the last probe, the result is the
coordinate `p` of the position `k` pixels away (the start itself when `k = 0`),
the box at `p` does not collide and the box one pixel further does. -/
theorem sweep_result (R : Nat → ℚ) (w : World) (x y delta : ℚ) (hz : Bool)
    (hstart : collides R w x y = some (false, w)) :
    ∃ s r, stepAxisTrace R w x y delta hz = some s ∧
      stepAxis R w x y delta hz = some (r, s.world) ∧
      (∀ i, i < s.probes.length →
        s.probes[i]? = some (along hz x y (((i : ℚ) + 1) * sign delta))) ∧
      ((s.probes.length = sweepSteps delta ∧
          (∀ q ∈ s.probes, collides R s.world q.1 q.2 = some (false, s.world)) ∧
          r = axisCoord hz x y + delta) ∨
        (∃ k, k < sweepSteps delta ∧ s.probes.length = k + 1 ∧
          (sign delta = 1 ∨ sign delta = -1) ∧
          (∀ i, i < k → collides R s.world (along hz x y (((i : ℚ) + 1) * sign delta)).1
            (along hz x y (((i : ℚ) + 1) * sign delta)).2 = some (false, s.world)) ∧
          r = axisCoord hz x y + (k : ℚ) * sign delta ∧
          collides R s.world (along hz x y ((k : ℚ) * sign delta)).1
            (along hz x y ((k : ℚ) * sign delta)).2 = some (false, s.world) ∧
          collides R s.world (along hz x y ((k : ℚ) * sign delta + sign delta)).1
            (along hz x y ((k : ℚ) * sign delta + sign delta)).2 = some (true, s.world))) := by
  obtain ⟨s, hloop, hext, _, hprobes, hcases⟩ :=
    stepAxisLoop_spec R (sign delta) hz (sweepSteps delta) w x y
  have htrace : stepAxisTrace R w x y delta hz = some s := hloop
  rcases hcases with ⟨hret, hlen, hall⟩ | ⟨k, hk, hlen, hret, hbefore, hhit⟩
  · refine ⟨s, axisCoord hz x y + delta, htrace, ?_, hprobes, Or.inl ⟨hlen, ?_, rfl⟩⟩
    · unfold stepAxis
      rw [htrace]
      simp only [Option.map_some', hret]
      cases hz <;> rfl
    · intro q hq
      obtain ⟨i, hi, hqi⟩ := List.getElem_of_mem hq
      have h1 := hprobes i hi
      rw [List.getElem?_eq_getElem hi, hqi] at h1
      rw [Option.some.inj h1]
      exact hall i (by omega)
  · refine ⟨s, axisCoord hz x y + (k : ℚ) * sign delta, htrace, ?_, hprobes,
      Or.inr ⟨k, hk, hlen, sign_of_steps delta (by omega), hbefore, rfl, ?_, ?_⟩⟩
    · unfold stepAxis
      rw [htrace]
      simp only [Option.map_some', hret]
    · cases k with
      | zero =>
        simp only [Nat.cast_zero, zero_mul, along_zero]
        exact collides_stable R w s.world x y false hstart hext
      | succ j =>
        have := hbefore j (by omega)
        push_cast; exact this
    · have e : (k : ℚ) * sign delta + sign delta = ((k : ℚ) + 1) * sign delta := by ring
      rw [e]; exact hhit

/-- C8 on flat terrain: a horizontal sweep of `3.3` pixels from `(16, 16)`. -/
theorem sweep_result_witness :
    collides noTrees flatWorld 16 16 = some (false, flatWorld) ∧
    ∃ s r, stepAxisTrace noTrees flatWorld 16 16 (33 / 10) true = some s ∧
      stepAxis noTrees flatWorld 16 16 (33 / 10) true = some (r, s.world) ∧
      (∀ i, i < s.probes.length →
        s.probes[i]? = some (along true 16 16 (((i : ℚ) + 1) * sign (33 / 10)))) ∧
      ((s.probes.length = sweepSteps (33 / 10) ∧
          (∀ q ∈ s.probes, collides noTrees s.world q.1 q.2 = some (false, s.world)) ∧
          r = axisCoord true 16 16 + 33 / 10) ∨
        (∃ k, k < sweepSteps (33 / 10) ∧ s.probes.length = k + 1 ∧
          (sign (33 / 10) = 1 ∨ sign (33 / 10) = -1) ∧
          (∀ i, i < k → collides noTrees s.world
            (along true 16 16 (((i : ℚ) + 1) * sign (33 / 10))).1
            (along true 16 16 (((i : ℚ) + 1) * sign (33 / 10))).2 = some (false, s.world)) ∧
          r = axisCoord true 16 16 + (k : ℚ) * sign (33 / 10) ∧
          collides noTrees s.world (along true 16 16 ((k : ℚ) * sign (33 / 10))).1
            (along true 16 16 ((k : ℚ) * sign (33 / 10))).2 = some (false, s.world) ∧
          collides noTrees s.world
            (along true 16 16 ((k : ℚ) * sign (33 / 10) + sign (33 / 10))).1
            (along true 16 16 ((k : ℚ) * sign (33 / 10) + sign (33 / 10))).2
              = some (true, s.world))) :=
  ⟨by decide!, sweep_result noTrees flatWorld 16 16 (33 / 10) true (by decide!)⟩

/-- C9, failing input. With a Stone block in the next tile, the player box at
`(14.5, 368)` does not collide; after the horizontal section of `update` with
the key `d` held and `dt = 0.03` the committed `player.x` is `21.1`, and the box
at the committed position collides. -/
theorem horizontal_move_penetrates : wallScenario = some (false, 211 / 10, true) := by
  decide!

/-! ### update -/

theorem stepAxis_spec (R : Nat → ℚ) (w : World) (x y delta : ℚ) (hz : Bool) :
    ∃ r w', stepAxis R w x y delta hz = some (r, w') ∧ w'.Extends w ∧ (w.WF → w'.WF) := by
  obtain ⟨s, hloop, hext, hwf, _⟩ :=
    stepAxisLoop_spec R (sign delta) hz (sweepSteps delta) w x y
  unfold stepAxis stepAxisTrace
  rw [hloop]
  cases hr : s.returned with
  | none => exact ⟨if hz then x + delta else y + delta, s.world, by simp [hr], hext, hwf⟩
  | some p => exact ⟨p, s.world, by simp [hr], hext, hwf⟩

theorem setTile_total (R : Nat → ℚ) (w : World) (wx wy : ℚ) (v : Tile) (hw : w.WF) :
    ∃ w1, setTile R w wx wy v = some w1 ∧ w1.WF :=
  let ⟨w1, h1, h2, _⟩ := setTile_then_getTile R w wx wy v hw
  ⟨w1, h1, h2⟩

/-- The horizontal section always returns; it changes only the world and
`player.x`. -/
theorem updateHorizontal_spec (R : Nat → ℚ) (g : Game) (dt : ℚ) :
    ∃ g1, updateHorizontal R g dt = some g1 ∧ (g.world.WF → g1.world.WF) ∧
      g1.player.y = g.player.y ∧ g1.player.vx = g.player.vx ∧ g1.player.vy = g.player.vy ∧
      g1.player.onGround = g.player.onGround ∧ g1.keys = g.keys ∧ g1.mouse = g.mouse ∧
      g1.selectedBlock = g.selectedBlock ∧ g1.w = g.w ∧ g1.h = g.h := by
  obtain ⟨c, w1, hcol, _, hwf1, _⟩ :=
    collides_spec R g.world (g.player.x + g.player.vx * dt) g.player.y
  cases c with
  | false =>
    exact ⟨{ g with world := w1, player := { g.player with x := g.player.x + g.player.vx * dt } },
      by simp [updateHorizontal, hcol], hwf1, rfl, rfl, rfl, rfl, rfl, rfl, rfl, rfl, rfl⟩
  | true =>
    obtain ⟨r, w2, hstep, _, hwf2⟩ :=
      stepAxis_spec R w1 g.player.x g.player.y (g.player.vx * dt) true
    exact ⟨{ g with world := w2, player := { g.player with x := r } },
      by simp [updateHorizontal, hcol, hstep], fun h => hwf2 (hwf1 h),
      rfl, rfl, rfl, rfl, rfl, rfl, rfl, rfl, rfl⟩

/-- The vertical section always returns; `onGround` and `vy` are set from the
result `c` of the vertical probe. -/
theorem updateVertical_spec (R : Nat → ℚ) (g : Game) (dt : ℚ) :
    ∃ c w1 g2, collides R g.world g.player.x (g.player.y + g.player.vy * dt) = some (c, w1) ∧
      updateVertical R g dt = some g2 ∧ (g.world.WF → g2.world.WF) ∧
      g2.player.onGround = (c && decide (0 < g.player.vy)) ∧
      g2.player.vy = (if c then 0 else g.player.vy) ∧
      g2.player.x = g.player.x ∧ g2.player.y = g.player.y := by
  obtain ⟨c, w1, hcol, _, hwf1, _⟩ :=
    collides_spec R g.world g.player.x (g.player.y + g.player.vy * dt)
  cases c with
  | false =>
    exact ⟨false, w1, { g with world := w1, player := { g.player with onGround := false } },
      hcol, by simp [updateVertical, hcol], hwf1, by simp, by simp, rfl, rfl⟩
  | true =>
    obtain ⟨r, w2, hstep, _, hwf2⟩ :=
      stepAxis_spec R w1 g.player.x g.player.y (g.player.vy * dt) false
    exact ⟨true, w1, { g with world := w2, player :=
        { g.player with vy := 0, onGround := decide (0 < g.player.vy) } },
      hcol, by simp [updateVertical, hcol, hstep], fun h => hwf2 (hwf1 h),
      by simp, by simp, rfl, rfl⟩

theorem mining_step (R : Nat → ℚ) (w : World) (px py : ℚ) (active : Bool) (onAir : Bool)
    (v : Tile) (hw : w.WF) :
    ∃ w1, (if active then
        (getTile R w px py).bind (fun r =>
          if (decide (r.1 = AIR)) = onAir then setTile R r.2 px py v else some r.2)
        else some w) = some w1 ∧ w1.WF := by
  by_cases ha : active = true
  · rw [if_pos ha]
    obtain ⟨t, w', hget, _, hwf, _⟩ := getTile_spec R w px py
    rw [hget]
    by_cases hv : (decide (t = AIR)) = onAir
    · obtain ⟨w1, h1, h2⟩ := setTile_total R w' px py v (hwf hw)
      exact ⟨w1, by simp [hv, h1], h2⟩
    · exact ⟨w', by simp [hv], hwf hw⟩
  · rw [if_neg ha]; exact ⟨w, rfl, hw⟩

/-- In a well-formed world the mining section returns; it does not change the
player. -/
theorem updateMining_spec (R : Nat → ℚ) (g : Game) (hw : g.world.WF) :
    ∃ g3, updateMining R g = some g3 ∧ g3.world.WF ∧ g3.player = g.player := by
  have key : ∀ px py : ℚ, ∃ w2,
      ((if g.mouse.left then
          (getTile R g.world px py).bind (fun r =>
            if r.1 ≠ AIR then setTile R r.2 px py AIR else some r.2)
        else some g.world).bind (fun w1 =>
          (if g.mouse.right then
            (getTile R w1 px py).bind (fun r =>
              if r.1 = AIR then setTile R r.2 px py g.selectedBlock else some r.2)
          else some w1))) = some w2 ∧ w2.WF := by
    intro px py
    obtain ⟨w1, h1, hw1⟩ := mining_step R g.world px py g.mouse.left false AIR hw
    obtain ⟨w2, h2, hw2⟩ := mining_step R w1 px py g.mouse.right true g.selectedBlock hw1
    refine ⟨w2, ?_, hw2⟩
    simp only [decide_eq_false_iff_not, decide_eq_true_eq] at h1 h2
    rw [h1]
    exact h2
  obtain ⟨w2, h2, hw2⟩ := key
    ((Int.floor (((getCamera g).x + g.mouse.x) / TILE) : ℚ) * TILE + 1)
    ((Int.floor (((getCamera g).y + g.mouse.y) / TILE) : ℚ) * TILE + 1)
  refine ⟨{ g with world := w2 }, ?_, hw2, rfl⟩
  unfold updateMining
  simp only [Option.bind_eq_bind] at h2 ⊢
  cases hl : (if g.mouse.left = true then
      (getTile R g.world ((Int.floor (((getCamera g).x + g.mouse.x) / TILE) : ℚ) * TILE + 1)
        ((Int.floor (((getCamera g).y + g.mouse.y) / TILE) : ℚ) * TILE + 1)).bind (fun r =>
          if r.1 ≠ AIR then setTile R r.2
            ((Int.floor (((getCamera g).x + g.mouse.x) / TILE) : ℚ) * TILE + 1)
            ((Int.floor (((getCamera g).y + g.mouse.y) / TILE) : ℚ) * TILE + 1) AIR
          else some r.2)
      else some g.world) with
  | none => rw [hl] at h2; simp at h2
  | some w1 =>
    rw [hl] at h2
    simp only [Option.some_bind] at h2
    simp only [hl, Option.some_bind, h2, Option.map_some']

/-! ### C10: grounded transition -/

/-- C10 (grounded transition). In a well-formed world one tick of `update`
returns. With `g1` the state after the horizontal section (whose `vy` is the
velocity after the jump rule and the gravity increment) and `c` the result of
the vertical probe `collides(player.x, player.y + player.vy*dt)` in that state:
after the tick `onGround` is `c && vy > 0`, and `vy` is `0` when the probe
collides and unchanged otherwise. In particular a falling player without jump
whose probe collides ends with `vy = 0` and `onGround = true`; a tick whose
probe does not collide, or with a jump, ends with `onGround = false`. -/
theorem grounded_transition (R : Nat → ℚ) (g : Game) (dt : ℚ) (hw : g.world.WF) :
    ∃ g1 c w2 g',
      updateHorizontal R (updateInput g) dt = some g1 ∧
      g1.player.y = g.player.y ∧
      g1.player.vy = (if (g.keys.contains "w" && g.player.onGround) then JUMP_VELOCITY
        else g.player.vy) + GRAVITY ∧
      collides R g1.world g1.player.x (g1.player.y + g1.player.vy * dt) = some (c, w2) ∧
      update R g dt = some g' ∧
      g'.player.x = g1.player.x ∧
      g'.player.onGround = (c && decide (0 < g1.player.vy)) ∧
      g'.player.vy = (if c then 0 else g1.player.vy) ∧
      ((0 < g.player.vy ∧ (g.keys.contains "w" && g.player.onGround) = false ∧ c = true) →
        g'.player.vy = 0 ∧ g'.player.onGround = true) ∧
      ((c = false ∨ (g.keys.contains "w" && g.player.onGround) = true) →
        g'.player.onGround = false) := by
  obtain ⟨g1, hh, hwf1, hy1, _, hvy1, _⟩ := updateHorizontal_spec R (updateInput g) dt
  obtain ⟨c, w2, g2, hcol, hv, hwf2, hog2, hvy2, hx2, _⟩ := updateVertical_spec R g1 dt
  have hw0 : (updateInput g).world.WF := hw
  obtain ⟨g3, hm, _, hp3⟩ := updateMining_spec R (updateClamp g2) (hwf2 (hwf1 hw0))
  have hvy : g1.player.vy = (if (g.keys.contains "w" && g.player.onGround) then JUMP_VELOCITY
      else g.player.vy) + GRAVITY := by rw [hvy1]; rfl
  have hog3 : g3.player.onGround = (c && decide (0 < g1.player.vy)) := by
    rw [hp3, ← hog2]; rfl
  have hvy3 : g3.player.vy = (if c then 0 else g1.player.vy) := by
    rw [hp3, ← hvy2]; rfl
  refine ⟨g1, c, w2, g3, hh, by rw [hy1]; rfl, hvy, hcol, ?_, by rw [hp3, ← hx2]; rfl,
    hog3, hvy3, ?_, ?_⟩
  · unfold update
    simp only [hh, hv, hm, Option.bind_eq_bind, Option.some_bind]
  · rintro ⟨hfall, hjump, hc⟩
    rw [hvy3, hog3, hc, hvy, hjump]
    simp only [if_true, Bool.true_and, decide_eq_true_eq, true_and]
    simp only [Bool.false_eq_true, if_false, GRAVITY]
    linarith
  · rintro (hc | hjump)
    · rw [hog3, hc]; rfl
    · rw [hog3, hvy, hjump]
      simp only [if_true, JUMP_VELOCITY, GRAVITY]
      have : ¬ ((0 : ℚ) < -360 + 20) := by norm_num
      simp [this]

/-- C10 at the start-up world of seed 0 with the player of the wall scenario. -/
theorem grounded_transition_witness :
    (World.initial 0).WF ∧
    ∃ g1 c w2 g',
      updateHorizontal noTrees (updateInput (wallGame (World.initial 0))) (1 / 60) = some g1 ∧
      g1.player.y = (wallGame (World.initial 0)).player.y ∧
      g1.player.vy = (if ((wallGame (World.initial 0)).keys.contains "w" &&
          (wallGame (World.initial 0)).player.onGround) then JUMP_VELOCITY
        else (wallGame (World.initial 0)).player.vy) + GRAVITY ∧
      collides noTrees g1.world g1.player.x (g1.player.y + g1.player.vy * (1 / 60))
        = some (c, w2) ∧
      update noTrees (wallGame (World.initial 0)) (1 / 60) = some g' ∧
      g'.player.x = g1.player.x ∧
      g'.player.onGround = (c && decide (0 < g1.player.vy)) ∧
      g'.player.vy = (if c then 0 else g1.player.vy) ∧
      ((0 < (wallGame (World.initial 0)).player.vy ∧
          ((wallGame (World.initial 0)).keys.contains "w" &&
            (wallGame (World.initial 0)).player.onGround) = false ∧ c = true) →
        g'.player.vy = 0 ∧ g'.player.onGround = true) ∧
      ((c = false ∨ ((wallGame (World.initial 0)).keys.contains "w" &&
          (wallGame (World.initial 0)).player.onGround) = true) →
        g'.player.onGround = false) :=
  ⟨by decide, grounded_transition noTrees (wallGame (World.initial 0)) (1 / 60) (by decide)⟩

/-! ### C11 and C12: the terrain column -/

/-- The grid generated for an absent coordinate, cell by cell. -/
theorem getChunk_fresh_read (R : Nat → ℚ) (w : World) (cx cy : Int)
    (habs : w.chunks.get (chunkKey cx cy) = none) :
    ∃ g w', getChunk R w cx cy = some (g, w') ∧ GridWF g ∧
      ∀ (y : Int) (x : Nat), 0 ≤ y → y < CHUNK_H → (x : Int) < CHUNK_W →
        readCell g y x
          = columnTile (surfaceHeight w.noise (cx * CHUNK_W + x)) (R (w.draws + x)) y := by
  obtain ⟨g, hgen, hwf, hget⟩ := getChunk_absent R w cx cy habs
  obtain ⟨g', hgen', _, hread⟩ := generate_read R w.noise w.draws cx
  rw [hgen] at hgen'
  have e : g' = g := (Option.some.inj hgen').symm
  subst e
  exact ⟨g', _, hget, hwf, hread⟩

theorem fillValue_toNat (y height : Int) (hy : 0 ≤ y) :
    fillValue y.toNat height =
      if y < height then AIR else if y = height then GRASS
      else if y - height < 3 then DIRT else STONE := by
  unfold fillValue
  rw [Int.toNat_of_nonneg hy]

theorem columnTile_no_tree (height : Int) (roll : ℚ) (y : Int) (hy : 0 ≤ y)
    (hno : ¬ (roll < 4 / 100 ∧ height + 1 < CHUNK_H - 5)) :
    columnTile height roll y =
      if y < height then AIR else if y = height then GRASS
      else if y - height < 3 then DIRT else STONE := by
  unfold columnTile
  rw [if_neg (fun h => hno ⟨h.1, h.2.1⟩), fillValue_toNat y height hy]

theorem columnTile_tree (height : Int) (roll : ℚ) (y : Int) (hy : 0 ≤ y)
    (hroll : roll < 4 / 100) (hfit : height + 1 < CHUNK_H - 5) :
    columnTile height roll y =
      if height + 1 ≤ y ∧ y ≤ height + 4 then WOOD
      else if y < height then AIR else if y = height then GRASS else STONE := by
  unfold columnTile
  by_cases ht : height + 1 ≤ y ∧ y ≤ height + 4
  · rw [if_pos ⟨hroll, hfit, ht⟩, if_pos ht]
  · rw [if_neg (fun h => ht h.2.2), if_neg ht, fillValue_toNat y height hy]
    by_cases h1 : y < height
    · rw [if_pos h1, if_pos h1]
    · rw [if_neg h1, if_neg h1]
      by_cases h2 : y = height
      · rw [if_pos h2, if_pos h2]
      · rw [if_neg h2, if_neg h2, if_neg (by omega)]

/-- C11, as stated, fails: for seed 42, chunk `(0, 0)`, column 0 without a
tree the surface row is 12 and row `12 + 3` is Stone, not Dirt. -/
theorem terrain_column_third_row_stone :
    ∃ g w', getChunk noTrees (World.initial 42) 0 0 = some (g, w') ∧
      surfaceHeight (World.initial 42).noise 0 = 12 ∧
      readCell g (12 + 3) 0 = STONE ∧ STONE ≠ DIRT := by
  obtain ⟨g, w', hget, _, hread⟩ := getChunk_fresh_read noTrees (World.initial 42) 0 0 rfl
  have hh : surfaceHeight (World.initial 42).noise 0 = 12 := by decide!
  refine ⟨g, w', hget, hh, ?_, by decide⟩
  have h := hread (12 + 3) 0 (by norm_num) (by simp [CHUNK_H]) (by simp [CHUNK_W])
  simp only [Nat.cast_zero, zero_mul, add_zero] at h
  rw [h, hh, columnTile_no_tree 12 _ (12 + 3) (by norm_num)
    (fun hc => by simp [noTrees] at hc; norm_num at hc)]
  rfl

/-- C11, amended (end-to-end terrain column). In a freshly generated chunk,
with `height = floor(20 + 8*fbm((cx*CHUNK_W + x)*0.03))`, the cell at row `y`
of column `x` is: Wood on the trunk rows `height+1 .. height+4` when the tree
roll of the column is below 0.04; otherwise Air above `height`, Grass at
`height`, Dirt at `height+1` and `height+2`, Stone from `height+3` on. -/
theorem terrain_column (R : Nat → ℚ) (w : World) (cx cy : Int) (x : Nat) (y : Int)
    (habs : w.chunks.get (chunkKey cx cy) = none) (hx : (x : Int) < CHUNK_W)
    (hy0 : 0 ≤ y) (hy1 : y < CHUNK_H) :
    ∃ g w', getChunk R w cx cy = some (g, w') ∧
      readCell g y x =
        if R (w.draws + x) < 4 / 100 ∧ surfaceHeight w.noise (cx * CHUNK_W + x) + 1 ≤ y ∧
            y ≤ surfaceHeight w.noise (cx * CHUNK_W + x) + 4 then WOOD
        else if y < surfaceHeight w.noise (cx * CHUNK_W + x) then AIR
        else if y = surfaceHeight w.noise (cx * CHUNK_W + x) then GRASS
        else if y = surfaceHeight w.noise (cx * CHUNK_W + x) + 1 ∨
            y = surfaceHeight w.noise (cx * CHUNK_W + x) + 2 then DIRT
        else STONE := by
  obtain ⟨g, w', hget, _, hread⟩ := getChunk_fresh_read R w cx cy habs
  refine ⟨g, w', hget, ?_⟩
  rw [hread y x hy0 hy1 hx]
  obtain ⟨hlo, hhi⟩ := surfaceHeight_mem w.noise (cx * CHUNK_W + x)
  generalize surfaceHeight w.noise (cx * CHUNK_W + x) = h at *
  have hfit : h + 1 < CHUNK_H - 5 := by simp only [CHUNK_H]; omega
  by_cases hroll : R (w.draws + x) < 4 / 100
  · rw [columnTile_tree h _ y hy0 hroll hfit]
    split_ifs <;> first | rfl | (exfalso; omega) | (exfalso; tauto)
  · rw [columnTile_no_tree h _ y hy0 (fun hc => hroll hc.1)]
    split_ifs <;> first | rfl | (exfalso; omega) | (exfalso; tauto)

/-- C11, amended, at seed 42, chunk `(0, 0)`, column 0, row 14. -/
theorem terrain_column_witness :
    (World.initial 42).chunks.get (chunkKey 0 0) = none ∧ (((0 : Nat) : Int) < CHUNK_W) ∧
    (0 : Int) ≤ 14 ∧ (14 : Int) < CHUNK_H ∧
    ∃ g w', getChunk noTrees (World.initial 42) 0 0 = some (g, w') ∧
      readCell g 14 (0 : Nat) =
        if noTrees ((World.initial 42).draws + 0) < 4 / 100 ∧
            surfaceHeight (World.initial 42).noise (0 * CHUNK_W + (0 : Nat)) + 1 ≤ 14 ∧
            14 ≤ surfaceHeight (World.initial 42).noise (0 * CHUNK_W + (0 : Nat)) + 4 then WOOD
        else if 14 < surfaceHeight (World.initial 42).noise (0 * CHUNK_W + (0 : Nat)) then AIR
        else if 14 = surfaceHeight (World.initial 42).noise (0 * CHUNK_W + (0 : Nat)) then GRASS
        else if 14 = surfaceHeight (World.initial 42).noise (0 * CHUNK_W + (0 : Nat)) + 1 ∨
            14 = surfaceHeight (World.initial 42).noise (0 * CHUNK_W + (0 : Nat)) + 2 then DIRT
        else STONE :=
  ⟨rfl, by decide, by decide, by decide,
    terrain_column noTrees (World.initial 42) 0 0 0 14 rfl (by decide) (by decide) (by decide)⟩

/-- C12 (column fill rule). In a freshly generated chunk, in a column where no
tree is placed, the cell at row `y` is Air if `y < height`, Grass if
`y = height`, Dirt if `0 < y - height < 3`, Stone if `y - height >= 3`. -/
theorem column_fill_rule (R : Nat → ℚ) (w : World) (cx cy : Int) (x : Nat) (y : Int)
    (habs : w.chunks.get (chunkKey cx cy) = none) (hx : (x : Int) < CHUNK_W)
    (hy0 : 0 ≤ y) (hy1 : y < CHUNK_H)
    (hno : ¬ (R (w.draws + x) < 4 / 100 ∧
      surfaceHeight w.noise (cx * CHUNK_W + x) + 1 < CHUNK_H - 5)) :
    ∃ g w', getChunk R w cx cy = some (g, w') ∧
      readCell g y x =
        if y < surfaceHeight w.noise (cx * CHUNK_W + x) then AIR
        else if y = surfaceHeight w.noise (cx * CHUNK_W + x) then GRASS
        else if y - surfaceHeight w.noise (cx * CHUNK_W + x) < 3 then DIRT
        else STONE := by
  obtain ⟨g, w', hget, _, hread⟩ := getChunk_fresh_read R w cx cy habs
  refine ⟨g, w', hget, ?_⟩
  rw [hread y x hy0 hy1 hx, columnTile_no_tree _ _ y hy0 hno]

/-- C12 at seed 7, chunk `(-2, 1)`, column 5, row 20, without tree rolls. -/
theorem column_fill_rule_witness :
    (World.initial 7).chunks.get (chunkKey (-2) 1) = none ∧ (((5 : Nat) : Int) < CHUNK_W) ∧
    (0 : Int) ≤ 20 ∧ (20 : Int) < CHUNK_H ∧
    ¬ (noTrees ((World.initial 7).draws + 5) < 4 / 100 ∧
      surfaceHeight (World.initial 7).noise (-2 * CHUNK_W + (5 : Nat)) + 1 < CHUNK_H - 5) ∧
    ∃ g w', getChunk noTrees (World.initial 7) (-2) 1 = some (g, w') ∧
      readCell g 20 (5 : Nat) =
        if 20 < surfaceHeight (World.initial 7).noise (-2 * CHUNK_W + (5 : Nat)) then AIR
        else if 20 = surfaceHeight (World.initial 7).noise (-2 * CHUNK_W + (5 : Nat)) then GRASS
        else if 20 - surfaceHeight (World.initial 7).noise (-2 * CHUNK_W + (5 : Nat)) < 3 then DIRT
        else STONE :=
  ⟨rfl, by decide, by decide, by decide,
    fun hc => by simp [noTrees] at hc; norm_num at hc,
    column_fill_rule noTrees (World.initial 7) (-2) 1 5 20 rfl (by decide) (by decide)
      (by decide) (fun hc => by simp [noTrees] at hc; norm_num at hc)⟩

/-! ### C13: edge heights -/

theorem sprinkleTree_miss (t : Grid) (x : Nat) (top : Int) (roll : ℚ)
    (h : ¬ roll < 4 / 100) : sprinkleTree t x top roll = some t := by
  unfold sprinkleTree; rw [if_neg h]

/-- The guard of the tree block bounds the trunk from below the chunk only
(`top + 1 < CHUNK_H - 5`): for a surface row under `-1`, which `surfaceHeight`
never yields (`surfaceHeight_mem`), a rolled trunk starts above row 0 and its
first write raises. -/
theorem sprinkleTree_raises (t : Grid) (x : Nat) (top : Int) (roll : ℚ)
    (hroll : roll < 4 / 100) (htop : top < -1) : sprinkleTree t x top roll = none := by
  unfold sprinkleTree
  rw [if_pos hroll, if_pos (by simp only [CHUNK_H]; omega)]
  have h1 : writeCell t (top + 1) x WOOD = none := by
    unfold writeCell; rw [if_neg (by omega)]
  simp [List.foldlM, h1]

/-- The generated column at a surface row at or beyond `CHUNK_H` is all Air. -/
theorem columnTile_beyond (height : Int) (roll : ℚ) (y : Int) (hy0 : 0 ≤ y)
    (hy1 : y < CHUNK_H) (hh : CHUNK_H ≤ height) : columnTile height roll y = AIR := by
  unfold columnTile
  rw [if_neg (fun hc => by simp only [CHUNK_H] at hc hh; omega), fillValue_toNat y height hy0,
    if_pos (by omega)]

/-- The generated column at a negative surface row has no Air row. -/
theorem columnTile_negative (height : Int) (roll : ℚ) (y : Int) (hy0 : 0 ≤ y)
    (hh : height < 0) : columnTile height roll y ≠ AIR := by
  unfold columnTile
  split_ifs
  · decide
  · rw [fillValue_toNat y height hy0, if_neg (by omega), if_neg (by omega)]
    split_ifs <;> decide

/-- C13 (edge heights). On a chunk-sized grid, for a column `x < CHUNK_W`, with
the surface row `height` an arbitrary integer (negative, inside the chunk, or
at or beyond `CHUNK_H`) and whatever the tree roll:

* the row fill never raises and rewrites exactly the rows `[0, CHUNK_H)` of
  column `x`;
* the whole column step (fill, then the optional trunk) never raises, keeps
  the grid chunk-sized and rewrites only the rows `[0, CHUNK_H)` of column `x`,
  for every `height >= -1`, and for every `height` when the roll places no
  tree; a trunk that is written lies in the rows `[0, CHUNK_H)`;
* a column with `height >= CHUNK_H` is all Air, a column with negative
  `height` has no Air row;
* every surface row that `getChunk` computes is `>= -1` (it lies in
  `[12, 42]`), so the column loop of `getChunk` never raises. -/
theorem edge_heights (R : Nat → ℚ) (noise : Noise) (d : Nat) (cx wx : Int) (tiles : Grid)
    (x : Nat) (height : Int) (roll : ℚ) (ht : GridWF tiles) (hx : (x : Int) < CHUNK_W) :
    (∃ t1, fillColumn tiles x height = some t1 ∧ GridWF t1 ∧
      ∀ y0 x0 : Int, readCell t1 y0 x0 =
        if x0 = (x : Int) ∧ 0 ≤ y0 ∧ y0 < CHUNK_H then fillValue y0.toNat height
        else readCell tiles y0 x0) ∧
    ((-1 ≤ height ∨ ¬ roll < 4 / 100) →
      (∃ t', genColumn tiles x height height roll = some t' ∧ GridWF t' ∧
        ∀ y0 x0 : Int, readCell t' y0 x0 =
          if x0 = (x : Int) ∧ 0 ≤ y0 ∧ y0 < CHUNK_H then columnTile height roll y0
          else readCell tiles y0 x0) ∧
      ((roll < 4 / 100 ∧ height + 1 < CHUNK_H - 5) →
        0 ≤ height + 1 ∧ height + 4 < CHUNK_H)) ∧
    (CHUNK_H ≤ height → ∀ y : Int, 0 ≤ y → y < CHUNK_H → columnTile height roll y = AIR) ∧
    (height < 0 → ∀ y : Int, 0 ≤ y → y < CHUNK_H → columnTile height roll y ≠ AIR) ∧
    (-1 ≤ surfaceHeight noise wx ∧ 12 ≤ surfaceHeight noise wx ∧ surfaceHeight noise wx ≤ 42) ∧
    (∃ g, generate R noise d cx = some g ∧ GridWF g) := by
  refine ⟨fillColumn_read tiles x height ht hx, ?_,
    fun hh y hy0 hy1 => columnTile_beyond height roll y hy0 hy1 hh,
    fun hh y hy0 _ => columnTile_negative height roll y hy0 hh, ?_, generate_wf R noise d cx⟩
  · intro hh
    constructor
    · rcases hh with hh | hroll
      · exact genColumn_read tiles x height roll ht hx hh
      · obtain ⟨t1, h1, ht1, hread1⟩ := fillColumn_read tiles x height ht hx
        refine ⟨t1, ?_, ht1, ?_⟩
        · unfold genColumn; rw [h1]; exact sprinkleTree_miss t1 x height roll hroll
        · intro y0 x0
          rw [hread1 y0 x0]
          have e : columnTile height roll y0 = fillValue y0.toNat height := by
            unfold columnTile
            rw [if_neg (fun hc => hroll hc.1)]
          rw [e]
    · rintro ⟨hroll, hfit⟩
      have hlow : -1 ≤ height := by
        rcases hh with hh | hno
        · exact hh
        · exact absurd hroll hno
      simp only [CHUNK_H] at hfit ⊢
      omega
  · obtain ⟨hlo, hhi⟩ := surfaceHeight_mem noise wx
    exact ⟨by omega, hlo, hhi⟩

/-- C13 on the fresh grid, column 3, surface row 70 (beyond the chunk), tree
roll 0, with the generation of seed 0, chunk column 0. -/
theorem edge_heights_witness :
    GridWF freshTiles ∧ (((3 : Nat) : Int) < CHUNK_W) ∧
    ((∃ t1, fillColumn freshTiles 3 70 = some t1 ∧ GridWF t1 ∧
      ∀ y0 x0 : Int, readCell t1 y0 x0 =
        if x0 = ((3 : Nat) : Int) ∧ 0 ≤ y0 ∧ y0 < CHUNK_H then fillValue y0.toNat 70
        else readCell freshTiles y0 x0) ∧
    ((-1 ≤ (70 : Int) ∨ ¬ (0 : ℚ) < 4 / 100) →
      (∃ t', genColumn freshTiles 3 70 70 0 = some t' ∧ GridWF t' ∧
        ∀ y0 x0 : Int, readCell t' y0 x0 =
          if x0 = ((3 : Nat) : Int) ∧ 0 ≤ y0 ∧ y0 < CHUNK_H then columnTile 70 0 y0
          else readCell freshTiles y0 x0) ∧
      (((0 : ℚ) < 4 / 100 ∧ (70 : Int) + 1 < CHUNK_H - 5) →
        0 ≤ (70 : Int) + 1 ∧ (70 : Int) + 4 < CHUNK_H)) ∧
    (CHUNK_H ≤ (70 : Int) → ∀ y : Int, 0 ≤ y → y < CHUNK_H → columnTile 70 0 y = AIR) ∧
    ((70 : Int) < 0 → ∀ y : Int, 0 ≤ y → y < CHUNK_H → columnTile 70 0 y ≠ AIR) ∧
    (-1 ≤ surfaceHeight (makeNoise 0) 5 ∧ 12 ≤ surfaceHeight (makeNoise 0) 5 ∧
      surfaceHeight (makeNoise 0) 5 ≤ 42) ∧
    (∃ g, generate noTrees (makeNoise 0) 0 0 = some g ∧ GridWF g)) :=
  ⟨freshTiles_wf, by decide,
    edge_heights noTrees (makeNoise 0) 0 0 5 freshTiles 3 70 0 freshTiles_wf (by decide)⟩

/-! ### C14: range of the noise -/

theorem rand_eq_div (n : Nat) : ∃ m : Nat, m < 4294967296 ∧ rand n = (m : ℚ) / 4294967295 := by
  have h0 : n % 4294967296 < 4294967296 := Nat.mod_lt _ (by norm_num)
  have h1 := xor_lt _ _ h0 (shl32_lt (n % 4294967296) 13)
  have h2 := xor_lt _ _ h1 (sar32_lt _ h1)
  have h3 := xor_lt _ _ h2 (shl32_lt
    (n % 4294967296 ^^^ shl32 (n % 4294967296) 13 ^^^
      sar32 (n % 4294967296 ^^^ shl32 (n % 4294967296) 13) 17) 5)
  exact ⟨_, h3, rfl⟩

theorem smoothstep_mem (t : ℚ) (ht0 : 0 ≤ t) (ht1 : t < 1) :
    0 ≤ smoothstep t ∧ smoothstep t ≤ 1 := by
  unfold smoothstep
  constructor
  · apply mul_nonneg (mul_nonneg ht0 ht0); linarith
  · nlinarith [mul_nonneg ht0 ht0, mul_nonneg (mul_nonneg ht0 ht0) (by linarith : (0:ℚ) ≤ 1 - t),
      mul_nonneg ht0 (by linarith : (0:ℚ) ≤ 1 - t), sq_nonneg (1 - t)]

/-- C14 (noise range). In exact arithmetic, for every seed and every `x`:
`value1D(x)` lies in `[0, 1]`; every lattice hash is a natural number below
`2^32` divided by `0xffffffff`; the fractional offset `t` lies in `[0, 1)` and
the smoothstep weight of every such `t` lies in `[0, 1]`; the result is the
combination `a*(1-u) + b*u` of the two lattice hashes; and at an integer `z`
the result is `rand(z XOR seed)`. -/
theorem noise_range (seed : Int) (x : ℚ) (n : Nat) (z : Int) :
    (0 ≤ (makeNoise seed).value1D x ∧ (makeNoise seed).value1D x ≤ 1) ∧
    (∃ m : Nat, m < 4294967296 ∧ rand n = (m : ℚ) / 4294967295) ∧
    (0 ≤ x - (⌊x⌋ : ℚ) ∧ x - (⌊x⌋ : ℚ) < 1) ∧
    (∀ t : ℚ, 0 ≤ t → t < 1 → 0 ≤ smoothstep t ∧ smoothstep t ≤ 1) ∧
    (makeNoise seed).value1D x =
      rand (toUint32 ⌊x⌋ ^^^ toUint32 seed) * (1 - smoothstep (x - (⌊x⌋ : ℚ))) +
        rand (toUint32 (⌊x⌋ + 1) ^^^ toUint32 seed) * smoothstep (x - (⌊x⌋ : ℚ)) ∧
    (makeNoise seed).value1D (z : ℚ) = rand (toUint32 z ^^^ toUint32 seed) := by
  refine ⟨value1D_mem _ x, rand_eq_div n, ⟨?_, ?_⟩, smoothstep_mem, rfl, ?_⟩
  · linarith [Int.floor_le x]
  · linarith [Int.lt_floor_add_one x]
  · unfold Noise.value1D makeNoise
    simp only [Int.floor_intCast, sub_self, mul_zero, zero_mul, sub_zero, mul_one, add_zero]

/-! ### C18: range of the surface height -/

/-- C18 (surface height range). In exact arithmetic, for every noise seed and
every world column: `fbm` lies in `[-1, 2.75]` and the surface row in
`[12, 42]`, so the row is inside the chunk, the tree condition
`height + 1 < CHUNK_H - 5` holds, and the trunk rows `height+1 .. height+4` are
inside `[0, CHUNK_H)`. Every column of a generated grid has Grass at its
surface row, and Wood on its trunk rows when its tree roll is below 0.04. -/
theorem surface_height_range (R : Nat → ℚ) (noise : Noise) (d : Nat) (cx : Int)
    (wx : Int) (x : Fin 32) (k : Fin 4) :
    (-1 ≤ fbm noise ((wx : ℚ) * (3 / 100)) ∧ fbm noise ((wx : ℚ) * (3 / 100)) ≤ 11 / 4) ∧
    (12 ≤ surfaceHeight noise wx ∧ surfaceHeight noise wx ≤ 42) ∧
    (0 ≤ surfaceHeight noise wx ∧ surfaceHeight noise wx < CHUNK_H) ∧
    surfaceHeight noise wx + 1 < CHUNK_H - 5 ∧
    (0 ≤ surfaceHeight noise wx + 1 + k.val ∧ surfaceHeight noise wx + 1 + k.val < CHUNK_H) ∧
    ∃ g, generate R noise d cx = some g ∧
      readCell g (surfaceHeight noise (cx * CHUNK_W + (x.val : Int))) (x.val : Int) = GRASS ∧
      readCell g (surfaceHeight noise (cx * CHUNK_W + (x.val : Int)) + 1 + k.val) (x.val : Int)
        = (if R (d + x.val) < 4 / 100 then WOOD
           else if (k.val : Int) < 2 then DIRT else STONE) := by
  obtain ⟨hlo, hhi⟩ := surfaceHeight_mem noise wx
  have hk := k.isLt
  have hxlt := x.isLt
  refine ⟨fbm_mem noise _, ⟨hlo, hhi⟩, ⟨by omega, by simp only [CHUNK_H]; omega⟩,
    by simp only [CHUNK_H]; omega, ⟨by omega, by simp only [CHUNK_H]; omega⟩, ?_⟩
  obtain ⟨g, hgen, _, hread⟩ := generate_read R noise d cx
  obtain ⟨hlo', hhi'⟩ := surfaceHeight_mem noise (cx * CHUNK_W + (x.val : Int))
  refine ⟨g, hgen, ?_, ?_⟩
  · rw [hread _ x.val (by omega) (by simp only [CHUNK_H]; omega)
      (by simp only [CHUNK_W]; omega)]
    generalize surfaceHeight noise (cx * CHUNK_W + (x.val : Int)) = h at *
    unfold columnTile
    rw [if_neg (fun hc => by omega), fillValue_toNat h h (by omega)]
    simp
  · rw [hread _ x.val (by omega) (by simp only [CHUNK_H]; omega)
      (by simp only [CHUNK_W]; omega)]
    generalize surfaceHeight noise (cx * CHUNK_W + (x.val : Int)) = h at *
    by_cases hroll : R (d + x.val) < 4 / 100
    · rw [columnTile_tree h _ _ (by omega) hroll (by simp only [CHUNK_H]; omega), if_pos hroll,
        if_pos ⟨by omega, by omega⟩]
    · rw [columnTile_no_tree h _ _ (by omega) (fun hc => hroll hc.1), if_neg hroll]
      split_ifs <;> first | rfl | (exfalso; omega)

/-! ### C20: the spawn position -/

/-- Rows 55 and 56 of every column of a generated grid are Stone. -/
theorem generated_deep_rows_stone (R : Nat → ℚ) (w : World) (cx cy : Int)
    (habs : w.chunks.get (chunkKey cx cy) = none) (x : Nat) (y : Int)
    (hx : (x : Int) < CHUNK_W) (hy0 : 55 ≤ y) (hy1 : y ≤ 56) :
    ∃ g w', getChunk R w cx cy = some (g, w') ∧ readCell g y x = STONE := by
  obtain ⟨g, w', hget, _, hread⟩ := getChunk_fresh_read R w cx cy habs
  refine ⟨g, w', hget, ?_⟩
  rw [hread y x (by omega) (by simp only [CHUNK_H]; omega) hx]
  obtain ⟨hlo, hhi⟩ := surfaceHeight_mem w.noise (cx * CHUNK_W + x)
  generalize surfaceHeight w.noise (cx * CHUNK_W + x) = h at *
  unfold columnTile
  rw [if_neg (fun hc => by omega), fillValue_toNat y h (by omega)]
  split_ifs <;> first | rfl | (exfalso; omega)

/-- C20 (spawn position collides). For every seed, every outcome of the
random source and every number of outcomes consumed, from an empty chunk store
`collides` at the initial player position `(0, -256)` returns `true`. The four
corners of the box lie in the chunks `(-1, -1)` and `(0, -1)`, in rows 55 and
56, and the first corner already reads Stone. -/
theorem spawn_collides (R : Nat → ℚ) (seed : Int) (d : Nat) :
    player.x = 0 ∧ player.y = -256 ∧
    (pts player.x player.y).map (fun p => worldToChunkTile p.1 p.2)
      = [⟨-1, -1, 31, 55⟩, ⟨0, -1, 0, 55⟩, ⟨-1, -1, 31, 56⟩, ⟨0, -1, 0, 56⟩] ∧
    (∃ w1, getTile R ⟨[], makeNoise seed, seed, d⟩ (-11) (-271) = some (STONE, w1)) ∧
    ∃ w', collides R ⟨[], makeNoise seed, seed, d⟩ player.x player.y = some (true, w') := by
  have hx : player.x = 0 := rfl
  have hy : player.y = -256 := by simp only [player, TILE]; norm_num
  have hpts : pts 0 (-256) = [(-11, -271), (11, -271), (-11, -241), (11, -241)] := by
    simp only [pts, Player.w, Player.h]; norm_num
  have hc : worldToChunkTile (-11) (-271) = ⟨-1, -1, 31, 55⟩ := by decide!
  have hget : ∃ w1, getTile R ⟨[], makeNoise seed, seed, d⟩ (-11) (-271) = some (STONE, w1) := by
    obtain ⟨g, w', hg, hread⟩ := generated_deep_rows_stone R ⟨[], makeNoise seed, seed, d⟩
      (-1) (-1) rfl 31 55 (by simp [CHUNK_W]) (by omega) (by omega)
    refine ⟨w', ?_⟩
    unfold getTile
    rw [hc]
    simp only [hg, Option.map_some']
    have : readCell g 55 31 = STONE := by exact_mod_cast hread
    rw [this]
  refine ⟨hx, hy, ?_, hget, ?_⟩
  · rw [hx, hy, hpts]; decide!
  · obtain ⟨w1, h1⟩ := hget
    refine ⟨w1, ?_⟩
    rw [hx, hy]
    unfold collides
    rw [hpts]
    simp [collidesLoop, h1, solid, STONE, AIR]

/-! ### One tick of update: the player -/

theorem updateVertical_frame (R : Nat → ℚ) (g g2 : Game) (dt : ℚ)
    (h : updateVertical R g dt = some g2) :
    g2.player.vx = g.player.vx ∧ g2.w = g.w ∧ g2.h = g.h := by
  unfold updateVertical at h
  simp only [Option.bind_eq_bind] at h
  cases hc : collides R g.world g.player.x (g.player.y + g.player.vy * dt) with
  | none => rw [hc] at h; simp at h
  | some r =>
    rw [hc] at h
    simp only [Option.some_bind] at h
    split at h
    · cases hs : stepAxis R r.2 g.player.x g.player.y (g.player.vy * dt) false with
      | none => rw [hs] at h; simp at h
      | some s =>
        rw [hs] at h
        simp only [Option.map_some', Option.some.injEq] at h
        subst h
        exact ⟨rfl, rfl, rfl⟩
    · simp only [Option.some.injEq] at h
      subst h
      exact ⟨rfl, rfl, rfl⟩

theorem updateMining_frame (R : Nat → ℚ) (g g3 : Game) (h : updateMining R g = some g3) :
    g3.player = g.player ∧ g3.w = g.w ∧ g3.h = g.h ∧ g3.keys = g.keys ∧ g3.mouse = g.mouse ∧
      g3.selectedBlock = g.selectedBlock := by
  unfold updateMining at h
  simp only [Option.bind_eq_bind, Option.bind_eq_some, Option.map_eq_some'] at h
  obtain ⟨w1, _, w2, _, hg⟩ := h
  subst hg
  exact ⟨rfl, rfl, rfl, rfl, rfl, rfl⟩

/-- In a well-formed world a tick of `update` returns. The horizontal velocity
is the one set from the keys; the vertical velocity is 0 or the velocity after
the jump rule and the gravity increment; `player.y` is only clamped. -/
theorem update_player_spec (R : Nat → ℚ) (g : Game) (dt : ℚ) (hw : g.world.WF) :
    ∃ g', update R g dt = some g' ∧ g'.world.WF ∧
      g'.player.vx = (updateInput g).player.vx ∧
      (g'.player.vy = 0 ∨ g'.player.vy = (updateInput g).player.vy) ∧
      g'.player.y = min g.player.y ((MAX_WORLD_HEIGHT : ℚ) - TILE * 2) ∧
      g'.w = g.w ∧ g'.h = g.h := by
  obtain ⟨g1, hh, hwf1, hy1, hvx1, hvy1, _, _, _, _, hw1, hh1⟩ :=
    updateHorizontal_spec R (updateInput g) dt
  obtain ⟨c, w2, g2, _, hv, hwf2, _, hvy2, _, hy2⟩ := updateVertical_spec R g1 dt
  obtain ⟨hvx2, hw2, hh2⟩ := updateVertical_frame R g1 g2 dt hv
  have hw0 : (updateInput g).world.WF := hw
  obtain ⟨g3, hm, hwf3, _⟩ := updateMining_spec R (updateClamp g2) (hwf2 (hwf1 hw0))
  obtain ⟨hp3, hw3, hh3, _⟩ := updateMining_frame R (updateClamp g2) g3 hm
  refine ⟨g3, ?_, hwf3, ?_, ?_, ?_, ?_, ?_⟩
  · unfold update
    simp only [hh, hv, hm, Option.bind_eq_bind, Option.some_bind]
  · rw [hp3]
    show g2.player.vx = _
    rw [hvx2, hvx1]
  · rw [hp3]
    show g2.player.vy = 0 ∨ g2.player.vy = _
    rw [hvy2, hvy1]
    cases c
    · right; simp
    · left; simp
  · rw [hp3]
    show min g2.player.y _ = _
    rw [hy2, hy1]; rfl
  · rw [hw3]; show g2.w = _; rw [hw2, hw1]; rfl
  · rw [hh3]; show g2.h = _; rw [hh2, hh1]; rfl

/-! ### C19: the vertical position -/

/-- C19 (vertical position is never integrated). In a well-formed world a
tick of `update` returns and `player.y` after it is
`min(player.y before, MAX_WORLD_HEIGHT - TILE*2)`, where the bound is 1984:
the tentative `ny` is not committed, `player.y <= 1984` after the tick, and
`player.y` is unchanged when it was at most 1984. -/
theorem vertical_position_not_integrated (R : Nat → ℚ) (g : Game) (dt : ℚ)
    (hw : g.world.WF) :
    ∃ g', update R g dt = some g' ∧
      g'.player.y = min g.player.y ((MAX_WORLD_HEIGHT : ℚ) - TILE * 2) ∧
      (MAX_WORLD_HEIGHT : ℚ) - TILE * 2 = 1984 ∧
      g'.player.y ≤ 1984 ∧
      (g.player.y ≤ 1984 → g'.player.y = g.player.y) := by
  obtain ⟨g', hu, _, _, _, hy, _⟩ := update_player_spec R g dt hw
  have hb : (MAX_WORLD_HEIGHT : ℚ) - TILE * 2 = 1984 := by
    simp only [MAX_WORLD_HEIGHT, CHUNK_H, TILE]; norm_num
  refine ⟨g', hu, hy, hb, ?_, ?_⟩
  · rw [hy, hb]; exact min_le_right _ _
  · intro hle; rw [hy, hb]; exact min_eq_left hle

/-- C19 in the wall scenario on flat terrain, `dt = 1/60`. -/
theorem vertical_position_not_integrated_witness :
    (wallGame flatWorld).world.WF ∧
    ∃ g', update noTrees (wallGame flatWorld) (1 / 60) = some g' ∧
      g'.player.y = min (wallGame flatWorld).player.y ((MAX_WORLD_HEIGHT : ℚ) - TILE * 2) ∧
      (MAX_WORLD_HEIGHT : ℚ) - TILE * 2 = 1984 ∧
      g'.player.y ≤ 1984 ∧
      ((wallGame flatWorld).player.y ≤ 1984 → g'.player.y = (wallGame flatWorld).player.y) :=
  ⟨by decide, vertical_position_not_integrated noTrees (wallGame flatWorld) (1 / 60)
    (by decide)⟩

/-! ### C17: velocities -/

theorem updateInput_vx (g : Game) : |(updateInput g).player.vx| ≤ MOVE_SPEED := by
  unfold updateInput
  simp only [MOVE_SPEED]
  rw [abs_le]
  split_ifs <;> norm_num

theorem updateInput_vy (g : Game) :
    |(updateInput g).player.vy| ≤ max |g.player.vy| |JUMP_VELOCITY| + GRAVITY := by
  unfold updateInput
  simp only [GRAVITY]
  by_cases hj : (g.keys.contains "w" && g.player.onGround) = true
  · simp only [hj, if_true]
    have := le_max_right |g.player.vy| |JUMP_VELOCITY|
    have h2 := abs_add JUMP_VELOCITY 20
    have h3 : |(20 : ℚ)| = 20 := abs_of_pos (by norm_num)
    linarith
  · simp only [hj]
    have := le_max_left |g.player.vy| |JUMP_VELOCITY|
    have h2 := abs_add g.player.vy 20
    have h3 : |(20 : ℚ)| = 20 := abs_of_pos (by norm_num)
    simp only [Bool.false_eq_true, if_false]
    linarith

theorem tick_spec (R : Nat → ℚ) (g : Game) (f : Frame) (hw : g.world.WF) :
    ∃ g', tick R g f = some g' ∧ g'.world.WF ∧ |g'.player.vx| ≤ MOVE_SPEED ∧
      |g'.player.vy| ≤ max |g.player.vy| |JUMP_VELOCITY| + GRAVITY := by
  obtain ⟨g', hu, hwf, hvx, hvy, _⟩ := update_player_spec R
    { g with keys := f.keys, mouse := f.mouse, selectedBlock := f.selectedBlock } f.dt hw
  refine ⟨g', hu, hwf, ?_, ?_⟩
  · rw [hvx]; exact updateInput_vx _
  · have hb := updateInput_vy
      { g with keys := f.keys, mouse := f.mouse, selectedBlock := f.selectedBlock }
    have hpos : (0 : ℚ) ≤ max |g.player.vy| |JUMP_VELOCITY| + GRAVITY := by
      have := le_max_left |g.player.vy| |JUMP_VELOCITY|
      have := abs_nonneg g.player.vy
      simp only [GRAVITY]; linarith
    rcases hvy with h0 | h1
    · rw [h0, abs_zero]; exact hpos
    · rw [h1]; exact hb

/-- C17, amended (velocities). In a well-formed world every sequence of ticks
returns; after the last tick `|vx| <= MOVE_SPEED`, and the vertical velocity
is bounded by `max(|vy at start|, |JUMP_VELOCITY|) + n * GRAVITY` after `n`
ticks (the code has no cap on `vy`). -/
theorem velocity_bounds (R : Nat → ℚ) :
    ∀ (frames : List Frame) (g : Game), g.world.WF →
      ∃ g', ticks R g frames = some g' ∧ g'.world.WF ∧
        (frames ≠ [] → |g'.player.vx| ≤ MOVE_SPEED) ∧
        |g'.player.vy| ≤ max |g.player.vy| |JUMP_VELOCITY| + (frames.length : ℚ) * GRAVITY := by
  intro frames
  induction frames with
  | nil =>
    intro g hw
    refine ⟨g, rfl, hw, fun h => absurd rfl h, ?_⟩
    simp only [List.length_nil, Nat.cast_zero, zero_mul, add_zero]
    exact le_max_left _ _
  | cons f rest ih =>
    intro g hw
    obtain ⟨g1, h1, hw1, hvx1, hvy1⟩ := tick_spec R g f hw
    obtain ⟨g', h', hw', hvx', hvy'⟩ := ih g1 hw1
    refine ⟨g', by simp [ticks, h1, h'], hw', fun _ => ?_, ?_⟩
    · cases rest with
      | nil =>
        simp only [ticks, Option.some.injEq] at h'
        rw [← h']; exact hvx1
      | cons f2 r2 => exact hvx' (by simp)
    · have hm : max |g1.player.vy| |JUMP_VELOCITY|
          ≤ max |g.player.vy| |JUMP_VELOCITY| + GRAVITY := by
        apply max_le hvy1
        have := le_max_right |g.player.vy| |JUMP_VELOCITY|
        simp only [GRAVITY]; linarith
      simp only [List.length_cons, Nat.cast_succ]
      linarith

/-- C17, amended, for two frames from the wall scenario on flat terrain. -/
theorem velocity_bounds_witness :
    (wallGame flatWorld).world.WF ∧
    ∃ g', ticks noTrees (wallGame flatWorld) [idleFrame, ⟨1 / 60, ["d"], ⟨0, 0, false, false⟩, DIRT⟩]
        = some g' ∧ g'.world.WF ∧
      (([idleFrame, ⟨1 / 60, ["d"], ⟨0, 0, false, false⟩, DIRT⟩] : List Frame) ≠ [] →
        |g'.player.vx| ≤ MOVE_SPEED) ∧
      |g'.player.vy| ≤ max |(wallGame flatWorld).player.vy| |JUMP_VELOCITY| +
        (([idleFrame, ⟨1 / 60, ["d"], ⟨0, 0, false, false⟩, DIRT⟩] : List Frame).length : ℚ)
          * GRAVITY :=
  ⟨by decide, velocity_bounds noTrees [idleFrame, ⟨1 / 60, ["d"], ⟨0, 0, false, false⟩, DIRT⟩]
    (wallGame flatWorld) (by decide)⟩

/-- An idle frame with no time elapsed, for the player floating at `(16, 16)`
above flat terrain: nothing collides and `vy` grows by `GRAVITY`. -/
theorem float_tick (v : ℚ) (og : Bool) :
    tick noTrees ⟨flatWorld, ⟨16, 16, 0, v, og⟩, [], ⟨0, 0, false, false⟩, DIRT, 800, 600⟩
        idleFrame
      = some ⟨flatWorld, ⟨16, 16, 0, v + 20, false⟩, [], ⟨0, 0, false, false⟩, DIRT, 800, 600⟩ := by
  have hcol : collides noTrees flatWorld 16 16 = some (false, flatWorld) := by decide!
  simp [tick, idleFrame, update, updateInput, updateHorizontal, updateVertical, updateClamp,
    updateMining, hcol, GRAVITY, MAX_WORLD_HEIGHT, CHUNK_H, TILE]
  norm_num

theorem float_ticks (n : Nat) : ∀ (v : ℚ) (og : Bool),
    ∃ og', ticks noTrees
        ⟨flatWorld, ⟨16, 16, 0, v, og⟩, [], ⟨0, 0, false, false⟩, DIRT, 800, 600⟩
        (List.replicate n idleFrame)
      = some ⟨flatWorld, ⟨16, 16, 0, v + 20 * n, og'⟩, [], ⟨0, 0, false, false⟩, DIRT, 800, 600⟩ := by
  induction n with
  | zero => intro v og; exact ⟨og, by simp [ticks]⟩
  | succ n ih =>
    intro v og
    obtain ⟨og', h⟩ := ih (v + 20) false
    refine ⟨og', ?_⟩
    simp only [List.replicate_succ, ticks, float_tick, Option.bind_eq_bind, Option.some_bind, h]
    push_cast
    ring_nf

/-- C17, as stated, fails: from the player at rest floating above flat
terrain, idle frames with no time elapsed make `vy` grow by `GRAVITY` each
tick, so no constant bounds `|vy|` after every tick. -/
theorem vertical_velocity_unbounded :
    ¬ ∃ V : ℚ, ∀ n : Nat, ∀ g', ticks noTrees floatGame (List.replicate n idleFrame) = some g' →
      |g'.player.vy| ≤ V := by
  rintro ⟨V, hV⟩
  obtain ⟨n, hn⟩ := exists_nat_gt V
  obtain ⟨og', h⟩ := float_ticks n 0 false
  have := hV n _ h
  simp only [zero_add] at this
  have h20 : (0 : ℚ) ≤ 20 * n := by positivity
  rw [abs_of_nonneg h20] at this
  have hn0 : (0 : ℚ) ≤ n := Nat.cast_nonneg n
  linarith

/-! ### C16: mining and placing -/

theorem updateMining_eq (R : Nat → ℚ) (g : Game) :
    updateMining R g =
      ((if g.mouse.left then
          (getTile R g.world (probePixel g).1 (probePixel g).2).bind (fun r =>
            if r.1 ≠ AIR then setTile R r.2 (probePixel g).1 (probePixel g).2 AIR
            else some r.2)
        else some g.world).bind (fun w1 =>
          (if g.mouse.right then
            (getTile R w1 (probePixel g).1 (probePixel g).2).bind (fun r =>
              if r.1 = AIR then
                setTile R r.2 (probePixel g).1 (probePixel g).2 g.selectedBlock
              else some r.2)
          else some w1).map (fun w2 => { g with world := w2 }))) := rfl

/-- The probe pixel lies in the tile of the pointer. -/
theorem probePixel_same_tile (g : Game) :
    worldToChunkTile (probePixel g).1 (probePixel g).2
      = worldToChunkTile ((getCamera g).x + g.mouse.x) ((getCamera g).y + g.mouse.y) := by
  have key : ∀ m : ℚ, ⌊((⌊m / 32⌋ : ℚ) * 32 + 1) / 32⌋ = ⌊m / 32⌋ := by
    intro m
    rw [Int.floor_eq_iff]
    constructor
    · have : ((⌊m / 32⌋ : ℚ) * 32 + 1) / 32 = (⌊m / 32⌋ : ℚ) + 1 / 32 := by ring
      rw [this]; linarith
    · have : ((⌊m / 32⌋ : ℚ) * 32 + 1) / 32 = (⌊m / 32⌋ : ℚ) + 1 / 32 := by ring
      rw [this]; linarith
  rw [worldToChunkTile_eq, worldToChunkTile_eq]
  simp only [probePixel, TILE]
  push_cast
  rw [key, key]

/-- One half of the mining section on the pixel `(px, py)`: when `active`, the
tile is read and, if its being Air equals `onAir`, overwritten with `v`. The
step returns; it changes nothing when not active; when active the tile at the
pixel afterwards is `v` or the value read; every other loaded tile is
unchanged. -/
theorem mining_step_full (R : Nat → ℚ) (w : World) (px py : ℚ) (active onAir : Bool)
    (v : Tile) (hw : w.WF) :
    ∃ w1, (if active then
        (getTile R w px py).bind (fun r =>
          if (decide (r.1 = AIR)) = onAir then setTile R r.2 px py v else some r.2)
        else some w) = some w1 ∧ w1.WF ∧
      (active = false → w1 = w) ∧
      (active = true → ∀ v0 w0, getTile R w px py = some (v0, w0) →
        getTile R w1 px py = some (if decide (v0 = AIR) = onAir then v else v0, w1)) ∧
      (∀ qx qy u, worldToChunkTile qx qy ≠ worldToChunkTile px py →
        getTile R w qx qy = some (u, w) → getTile R w1 qx qy = some (u, w1)) := by
  by_cases ha : active = true
  · rw [if_pos ha]
    obtain ⟨t, w', hget, hext, hwf, hstab⟩ := getTile_spec R w px py
    rw [hget]
    by_cases hv : (decide (t = AIR)) = onAir
    · obtain ⟨w1, h1, h2, h3⟩ := setTile_then_getTile R w' px py v (hwf hw)
      refine ⟨w1, by simp [hv, h1], h2, fun hf => (by rw [ha] at hf; cases hf), ?_, ?_⟩
      · intro _ v0 w0 h0
        simp only [Option.some.injEq, Prod.mk.injEq] at h0
        rw [← h0.1, if_pos hv]; exact h3
      · intro qx qy u hne hq
        have hq' := getTile_stable R w w' qx qy u hq hext
        obtain ⟨w2, hrun, _, hread⟩ := stored_step R w' qx qy u (TileOp.write px py v) (hwf hw) hq'
          (fun hc => hne hc.symm)
        simp only [TileOp.run] at hrun
        rw [h1] at hrun
        rw [Option.some.inj hrun]; exact hread
    · refine ⟨w', by simp [hv], hwf hw, fun hf => (by rw [ha] at hf; cases hf), ?_, ?_⟩
      · intro _ v0 w0 h0
        simp only [Option.some.injEq, Prod.mk.injEq] at h0
        rw [← h0.1, if_neg hv]; exact hstab
      · intro qx qy u _ hq
        exact getTile_stable R w w' qx qy u hq hext
  · rw [if_neg ha]
    refine ⟨w, rfl, hw, fun _ => rfl, fun h => absurd h ha, fun _ _ _ _ hq => hq⟩

theorem updateHorizontal_extends (R : Nat → ℚ) (g g1 : Game) (dt : ℚ)
    (h : updateHorizontal R g dt = some g1) : g1.world.Extends g.world := by
  obtain ⟨c, w1, hcol, hext1, _, _⟩ :=
    collides_spec R g.world (g.player.x + g.player.vx * dt) g.player.y
  cases c with
  | false =>
    simp only [updateHorizontal, hcol, Option.bind_eq_bind, Option.some_bind,
      Bool.false_eq_true, if_false, Option.some.injEq] at h
    rw [← h]; exact hext1
  | true =>
    obtain ⟨r, w2, hstep, hext2, _⟩ :=
      stepAxis_spec R w1 g.player.x g.player.y (g.player.vx * dt) true
    simp only [updateHorizontal, hcol, hstep, Option.bind_eq_bind, Option.some_bind, if_true,
      Option.map_some', Option.some.injEq] at h
    rw [← h]; exact hext2.trans hext1

theorem updateVertical_extends (R : Nat → ℚ) (g g2 : Game) (dt : ℚ)
    (h : updateVertical R g dt = some g2) :
    g2.world.Extends g.world ∧ g2.keys = g.keys ∧ g2.mouse = g.mouse ∧
      g2.selectedBlock = g.selectedBlock := by
  obtain ⟨c, w1, hcol, hext1, _, _⟩ :=
    collides_spec R g.world g.player.x (g.player.y + g.player.vy * dt)
  cases c with
  | false =>
    simp only [updateVertical, hcol, Option.bind_eq_bind, Option.some_bind,
      Bool.false_eq_true, if_false, Option.some.injEq] at h
    rw [← h]; exact ⟨hext1, rfl, rfl, rfl⟩
  | true =>
    obtain ⟨r, w2, hstep, hext2, _⟩ :=
      stepAxis_spec R w1 g.player.x g.player.y (g.player.vy * dt) false
    simp only [updateVertical, hcol, hstep, Option.bind_eq_bind, Option.some_bind, if_true,
      Option.map_some', Option.some.injEq] at h
    rw [← h]; exact ⟨hext2.trans hext1, rfl, rfl, rfl⟩

/-- C16 (mining and placing). In a well-formed world a tick of `update`
returns. Let `g2` be the state that enters the mining section (its world
extends the one at the start of the tick), `P` its probe pixel and `v0` the
tile read at `P` in that state. `P` lies in the tile of the pointer. After the
tick the tile at `P` is Air when only the primary input is active; it is the
selected block if `v0` is Air and `v0` otherwise when only the secondary input
is active; the mining section leaves the world unchanged when neither is
active; and every loaded tile outside the tile of `P` keeps its value. -/
theorem mining_and_placing (R : Nat → ℚ) (g : Game) (dt : ℚ) (hw : g.world.WF) :
    ∃ g2 g' v0 w0,
      update R g dt = some g' ∧ updateMining R g2 = some g' ∧
      g2.world.Extends g.world ∧ g2.mouse = g.mouse ∧ g2.selectedBlock = g.selectedBlock ∧
      worldToChunkTile (probePixel g2).1 (probePixel g2).2
        = worldToChunkTile ((getCamera g2).x + g2.mouse.x) ((getCamera g2).y + g2.mouse.y) ∧
      getTile R g2.world (probePixel g2).1 (probePixel g2).2 = some (v0, w0) ∧
      ((g.mouse.left = true ∧ g.mouse.right = false) →
        getTile R g'.world (probePixel g2).1 (probePixel g2).2 = some (AIR, g'.world)) ∧
      ((g.mouse.left = false ∧ g.mouse.right = true) →
        getTile R g'.world (probePixel g2).1 (probePixel g2).2
          = some (if v0 = AIR then g.selectedBlock else v0, g'.world)) ∧
      ((g.mouse.left = false ∧ g.mouse.right = false) → g'.world = g2.world) ∧
      (∀ qx qy u,
        worldToChunkTile qx qy ≠ worldToChunkTile (probePixel g2).1 (probePixel g2).2 →
        getTile R g2.world qx qy = some (u, g2.world) →
        getTile R g'.world qx qy = some (u, g'.world)) := by
  obtain ⟨g1, hh, hwf1, _, _, _, _, hk1, hm1, hs1, _⟩ :=
    updateHorizontal_spec R (updateInput g) dt
  obtain ⟨c, wv, gv, _, hv, hwfv, _⟩ := updateVertical_spec R g1 dt
  obtain ⟨hextv, hkv, hmv, hsv⟩ := updateVertical_extends R g1 gv dt hv
  have hext1 := updateHorizontal_extends R (updateInput g) g1 dt hh
  have hw0 : (updateInput g).world.WF := hw
  have hw2 : (updateClamp gv).world.WF := hwfv (hwf1 hw0)
  have hmouse : (updateClamp gv).mouse = g.mouse := by
    show gv.mouse = _; rw [hmv, hm1]; rfl
  have hsel : (updateClamp gv).selectedBlock = g.selectedBlock := by
    show gv.selectedBlock = _; rw [hsv, hs1]; rfl
  have hext : (updateClamp gv).world.Extends g.world := hextv.trans hext1
  obtain ⟨g2, hg2⟩ : ∃ g2, g2 = updateClamp gv := ⟨_, rfl⟩
  rw [← hg2] at hw2 hmouse hsel hext
  obtain ⟨v0, w0, hget0, _, _, _⟩ :=
    getTile_spec R g2.world (probePixel g2).1 (probePixel g2).2
  obtain ⟨w1, hl, hwl, hl_off, hl_on, hl_frame⟩ := mining_step_full R g2.world
    (probePixel g2).1 (probePixel g2).2 g2.mouse.left false AIR hw2
  obtain ⟨w2, hr, _, hr_off, hr_on, hr_frame⟩ := mining_step_full R w1
    (probePixel g2).1 (probePixel g2).2 g2.mouse.right true g2.selectedBlock hwl
  simp only [decide_eq_false_iff_not, decide_eq_true_eq] at hl hr
  have hmine : updateMining R g2 = some { g2 with world := w2 } := by
    rw [updateMining_eq, hl]
    simp only [Option.bind_eq_bind, Option.some_bind, hr, Option.map_some']
  refine ⟨g2, { g2 with world := w2 }, v0, w0, ?_, hmine, hext, hmouse, hsel,
    probePixel_same_tile g2, hget0, ?_, ?_, ?_, ?_⟩
  · unfold update
    simp only [hh, hv, Option.bind_eq_bind, Option.some_bind]
    rw [← hg2]; exact hmine
  · rintro ⟨hleft, hright⟩
    rw [← hmouse] at hleft hright
    have e2 : w2 = w1 := hr_off hright
    have := hl_on hleft v0 w0 hget0
    show getTile R w2 _ _ = some (AIR, w2)
    rw [e2, this]
    by_cases h0 : v0 = AIR <;> simp [h0]
  · rintro ⟨hleft, hright⟩
    rw [← hmouse] at hleft hright
    rw [← hsel]
    have e1 : w1 = g2.world := hl_off hleft
    have := hr_on hright v0 w0 (by rw [e1]; exact hget0)
    show getTile R w2 _ _ = some (_, w2)
    rw [this]
    by_cases h0 : v0 = AIR <;> simp [h0]
  · rintro ⟨hleft, hright⟩
    rw [← hmouse] at hleft hright
    show w2 = g2.world
    rw [hr_off hright, hl_off hleft]
  · intro qx qy u hne hq
    exact hr_frame qx qy u hne (hl_frame qx qy u hne hq)

/-- C16 for the primary input over flat terrain, `dt = 1/60`. -/
theorem mining_and_placing_witness :
    mineGame.world.WF ∧
    ∃ g2 g' v0 w0,
      update noTrees mineGame (1 / 60) = some g' ∧ updateMining noTrees g2 = some g' ∧
      g2.world.Extends mineGame.world ∧ g2.mouse = mineGame.mouse ∧
      g2.selectedBlock = mineGame.selectedBlock ∧
      worldToChunkTile (probePixel g2).1 (probePixel g2).2
        = worldToChunkTile ((getCamera g2).x + g2.mouse.x) ((getCamera g2).y + g2.mouse.y) ∧
      getTile noTrees g2.world (probePixel g2).1 (probePixel g2).2 = some (v0, w0) ∧
      ((mineGame.mouse.left = true ∧ mineGame.mouse.right = false) →
        getTile noTrees g'.world (probePixel g2).1 (probePixel g2).2 = some (AIR, g'.world)) ∧
      ((mineGame.mouse.left = false ∧ mineGame.mouse.right = true) →
        getTile noTrees g'.world (probePixel g2).1 (probePixel g2).2
          = some (if v0 = AIR then mineGame.selectedBlock else v0, g'.world)) ∧
      ((mineGame.mouse.left = false ∧ mineGame.mouse.right = false) → g'.world = g2.world) ∧
      (∀ qx qy u,
        worldToChunkTile qx qy ≠ worldToChunkTile (probePixel g2).1 (probePixel g2).2 →
        getTile noTrees g2.world qx qy = some (u, g2.world) →
        getTile noTrees g'.world qx qy = some (u, g'.world)) :=
  ⟨by decide, mining_and_placing noTrees mineGame (1 / 60) (by decide)⟩

/-! ### C15: regeneration -/

theorem FreshFrom_getChunk (R : Nat → ℚ) (n : Noise) (d0 : Nat) (w : World) (cx cy : Int)
    (hf : w.FreshFrom R n d0) :
    ∃ g w', getChunk R w cx cy = some (g, w') ∧ w'.FreshFrom R n d0 ∧
      w'.chunks.get (chunkKey cx cy) = some g := by
  obtain ⟨hn, hd, hcells⟩ := hf
  cases h : w.chunks.get (chunkKey cx cy) with
  | some g => exact ⟨g, w, getChunk_present R w cx cy g h, ⟨hn, hd, hcells⟩, h⟩
  | none =>
    obtain ⟨g, w', hget, _, hread⟩ := getChunk_fresh_read R w cx cy h
    obtain ⟨g0, _, _, hget0⟩ := getChunk_absent R w cx cy h
    rw [hget0] at hget
    simp only [Option.some.injEq, Prod.mk.injEq] at hget
    obtain ⟨hg, hw'⟩ := hget
    subst hg
    have hlook : ∀ key, Chunks.get (w.chunks ++ [(chunkKey cx cy, g0)]) key
        = if chunkKey cx cy = key then some g0 else w.chunks.get key := by
      intro key
      rw [← Chunks.set_of_get_none _ _ _ h, Chunks.get_set]
    refine ⟨g0, w', hget0.trans (by rw [hw']), ?_, ?_⟩
    · rw [← hw']
      refine ⟨hn, Nat.le_add_right_of_le hd, ?_⟩
      intro cx' cy' g' hg' y x hy0 hy1 hx
      have hg'' : Chunks.get (w.chunks ++ [(chunkKey cx cy, g0)]) (chunkKey cx' cy') = some g' :=
        hg'
      rw [hlook] at hg''
      by_cases hk : chunkKey cx cy = chunkKey cx' cy'
      · rw [if_pos hk] at hg''
        obtain ⟨e1, _⟩ := chunkKey_injective _ _ _ _ hk
        rw [← Option.some.inj hg'', ← e1, ← hn]
        exact ⟨w.draws + x, Nat.le_add_right_of_le hd, hread y x hy0 hy1 hx⟩
      · rw [if_neg hk] at hg''
        exact hcells cx' cy' g' hg'' y x hy0 hy1 hx
    · rw [← hw']
      show Chunks.get (w.chunks ++ [(chunkKey cx cy, g0)]) _ = _
      rw [hlook, if_pos rfl]

theorem FreshFrom_runOps (R : Nat → ℚ) (n : Noise) (d0 : Nat) :
    ∀ (ops : List TileOp) (w : World), w.FreshFrom R n d0 →
      (∀ o ∈ ops, o.isWrite = false) →
      ∃ w', runOps R w ops = some w' ∧ w'.FreshFrom R n d0 := by
  intro ops
  induction ops with
  | nil => intro w hf _; exact ⟨w, rfl, hf⟩
  | cons o ops ih =>
    intro w hf hops
    have ho := hops o (List.mem_cons_self _ _)
    have hstep : ∃ w1, o.run R w = some w1 ∧ w1.FreshFrom R n d0 := by
      cases o with
      | read x y =>
        obtain ⟨g, w1, hget, hf1, _⟩ := FreshFrom_getChunk R n d0 w
          (worldToChunkTile x y).cx (worldToChunkTile x y).cy hf
        exact ⟨w1, by simp [TileOp.run, getTile, hget], hf1⟩
      | fetch cx cy =>
        obtain ⟨g, w1, hget, hf1, _⟩ := FreshFrom_getChunk R n d0 w cx cy hf
        exact ⟨w1, by simp [TileOp.run, hget], hf1⟩
      | write x y v => simp [TileOp.isWrite] at ho
    obtain ⟨w1, h1, hf1⟩ := hstep
    obtain ⟨w', h', hf'⟩ := ih w1 hf1 (fun o' ho' => hops o' (List.mem_cons_of_mem _ ho'))
    exact ⟨w', by simp [runOps, h1, h'], hf'⟩

/-- C15 (regeneration isolation). After `regenerate()` the store is empty and
the noise closure is `makeNoise` of the new seed; the state after it depends
on the previous state only through the number of random outcomes consumed (not
on the store contents, hence on no earlier `setTile`, nor on the old seed);
and after any further reads and chunk requests, `getTile(wx, wy)` returns the
cell generated for the new seed from random outcomes drawn after the
regeneration. -/
theorem regeneration_isolation (R : Nat → ℚ) (w : World) (ops : List TileOp) (wx wy : ℚ)
    (hops : ∀ o ∈ ops, o.isWrite = false) :
    (regenerate R w).chunks = [] ∧
    (regenerate R w).seed = toInt32 (R w.draws * 1000000000) ∧
    (regenerate R w).noise = makeNoise (regenerate R w).seed ∧
    (∀ (chunks' : Chunks) (noise' : Noise) (seed' : Int),
      regenerate R ⟨chunks', noise', seed', w.draws⟩ = regenerate R w) ∧
    ∃ w1 v w2 k, runOps R (regenerate R w) ops = some w1 ∧
      getTile R w1 wx wy = some (v, w2) ∧ w.draws + 1 ≤ k ∧
      v = columnTile
        (surfaceHeight (makeNoise (regenerate R w).seed)
          ((worldToChunkTile wx wy).cx * CHUNK_W + (worldToChunkTile wx wy).lx))
        (R k) (worldToChunkTile wx wy).ly := by
  refine ⟨rfl, rfl, rfl, fun _ _ _ => rfl, ?_⟩
  have hf0 : (regenerate R w).FreshFrom R (makeNoise (regenerate R w).seed) (w.draws + 1) :=
    ⟨rfl, le_refl _, fun cx cy g hg => by simp [regenerate, Chunks.get] at hg⟩
  obtain ⟨w1, hrun, hf1⟩ := FreshFrom_runOps R _ _ ops _ hf0 hops
  obtain ⟨g, w2, hget, hf2, hkey⟩ := FreshFrom_getChunk R _ _ w1
    (worldToChunkTile wx wy).cx (worldToChunkTile wx wy).cy hf1
  obtain ⟨hb1, hb2, hb3, hb4⟩ := worldToChunkTile_bounds wx wy
  obtain ⟨k, hk, hcell⟩ := hf2.2.2 _ _ g hkey (worldToChunkTile wx wy).ly
    (worldToChunkTile wx wy).lx.toNat hb3 hb4 (by rw [Int.toNat_of_nonneg hb1]; exact hb2)
  rw [Int.toNat_of_nonneg hb1] at hcell
  refine ⟨w1, _, w2, k, hrun, ?_, hk, hcell⟩
  unfold getTile
  simp only [hget, Option.map_some']

/-- C15 from a mutated flat world: regeneration, then a read and a chunk
request, then `getTile(40, 360)`. -/
theorem regeneration_isolation_witness :
    (∀ o ∈ [TileOp.read 0 0, TileOp.fetch 2 0], o.isWrite = false) ∧
    ((regenerate noTrees flatWorld).chunks = [] ∧
    (regenerate noTrees flatWorld).seed = toInt32 (noTrees flatWorld.draws * 1000000000) ∧
    (regenerate noTrees flatWorld).noise = makeNoise (regenerate noTrees flatWorld).seed ∧
    (∀ (chunks' : Chunks) (noise' : Noise) (seed' : Int),
      regenerate noTrees ⟨chunks', noise', seed', flatWorld.draws⟩
        = regenerate noTrees flatWorld) ∧
    ∃ w1 v w2 k, runOps noTrees (regenerate noTrees flatWorld)
        [TileOp.read 0 0, TileOp.fetch 2 0] = some w1 ∧
      getTile noTrees w1 40 360 = some (v, w2) ∧ flatWorld.draws + 1 ≤ k ∧
      v = columnTile
        (surfaceHeight (makeNoise (regenerate noTrees flatWorld).seed)
          ((worldToChunkTile 40 360).cx * CHUNK_W + (worldToChunkTile 40 360).lx))
        (noTrees k) (worldToChunkTile 40 360).ly) :=
  ⟨by decide, regeneration_isolation noTrees flatWorld [TileOp.read 0 0, TileOp.fetch 2 0] 40 360
    (by decide)⟩

end Terracraft
